import Mathlib

/-!
# Verification of `trame_server.utils.typed_state`

A shallow embedding of `src/trame_server/utils/typed_state.py`.

Modelling conventions:
* Python dicts are modelled as insertion-ordered association lists
  (`List (String × β)`).  Assignment `d[k] = v` replaces the value in
  place when the key is present and appends otherwise, as Python does;
  `d.update(other)` folds assignment over the other dict.
* The trame `State` object is not part of the sources.  Modelled from the
  spec: the store is a string-keyed map with `get` (primitive or missing),
  `set`, and `set_default` (no-op when the key is already present).
* Python runtime values that the codec handles are modelled by `PVal`,
  declared types by `PType`.  ISO strings produced by `isoformat` are
  modelled by an injective, executable rendering of the underlying
  numbers; `fromisoformat` is its partial inverse and fails with a
  `valueError` on any other string, as in Python.
* Python exceptions are modelled by `PErr`; operations that mutate the
  store return the store reached so far together with an optional error,
  because a Python exception does not roll back earlier mutations.
-/

/-! ## Python-dict style association lists -/

/-- Python `d[k] = v`: replace in place if the key is present, else append. -/
def pyIns {β : Type} : List (String × β) → String → β → List (String × β)
  | [], k, v => [(k, v)]
  | (k', v') :: r, k, v =>
      if k' = k then (k', v) :: r else (k', v') :: pyIns r k v

/-- Python `d.update(other)`: assign every entry of `other` into `d` in order. -/
def pyUpd {β : Type} (d other : List (String × β)) : List (String × β) :=
  other.foldl (fun acc kv => pyIns acc kv.1 kv.2) d

/-- Python `d[k]` / `d.get(k)`: first (and only) entry with the given key. -/
def pyGet {β : Type} : List (String × β) → String → Option β
  | [], _ => none
  | (k', v') :: r, k => if k' = k then some v' else pyGet r k

/-- Python `d.keys()` in insertion order. -/
def pyKeys {β : Type} (d : List (String × β)) : List String :=
  d.map Prod.fst

@[simp] theorem pyKeys_nil {β : Type} : pyKeys ([] : List (String × β)) = [] := rfl

@[simp] theorem pyKeys_cons {β : Type} (k : String) (v : β) (r : List (String × β)) :
    pyKeys ((k, v) :: r) = k :: pyKeys r := rfl

@[simp] theorem pyKeys_append {β : Type} (d d' : List (String × β)) :
    pyKeys (d ++ d') = pyKeys d ++ pyKeys d' := by
  simp [pyKeys]

theorem pyIns_eq_append {β : Type} (d : List (String × β)) (k : String) (v : β)
    (h : k ∉ pyKeys d) : pyIns d k v = d ++ [(k, v)] := by
  induction d with
  | nil => rfl
  | cons kv r ih =>
      obtain ⟨k', v'⟩ := kv
      simp only [pyKeys, List.map_cons, List.mem_cons] at h
      push_neg at h
      have hne : ¬ (k' = k) := fun hk => h.1 hk.symm
      simp only [pyIns, if_neg hne, List.cons_append]
      rw [ih h.2]

theorem pyUpd_eq_append {β : Type} (other : List (String × β)) :
    ∀ d : List (String × β), (pyKeys other).Nodup →
      (∀ k, k ∈ pyKeys other → k ∉ pyKeys d) → pyUpd d other = d ++ other := by
  induction other with
  | nil => intro d _ _; simp [pyUpd]
  | cons kv r ih =>
      intro d hnd h
      obtain ⟨k, v⟩ := kv
      have hk : k ∉ pyKeys d := h k (by simp [pyKeys])
      have hstep : pyUpd d ((k, v) :: r) = pyUpd (pyIns d k v) r := rfl
      simp only [pyKeys, List.map_cons, List.nodup_cons] at hnd
      rw [hstep, pyIns_eq_append d k v hk, ih (d ++ [(k, v)]) hnd.2]
      · simp
      · intro k' hk' hmem
        rw [pyKeys_append, List.mem_append] at hmem
        rcases hmem with hc | hc
        · exact h k' (by rw [pyKeys_cons]; exact List.mem_cons_of_mem _ hk') hc
        · simp only [pyKeys, List.map_cons, List.map_nil, List.mem_singleton] at hc
          exact hnd.1 (hc ▸ hk')

theorem pyGet_append_right {β : Type} (d d' : List (String × β)) (k : String)
    (h : k ∉ pyKeys d) : pyGet (d ++ d') k = pyGet d' k := by
  induction d with
  | nil => rfl
  | cons kv r ih =>
      obtain ⟨k', v'⟩ := kv
      simp only [pyKeys, List.map_cons, List.mem_cons] at h
      push_neg at h
      have hne : ¬ (k' = k) := fun hk => h.1 hk.symm
      simp only [List.cons_append, pyGet, if_neg hne]
      exact ih h.2

theorem pyGet_append_left {β : Type} (d d' : List (String × β)) (k : String)
    (h : (pyGet d k).isSome) : pyGet (d ++ d') k = pyGet d k := by
  induction d with
  | nil => simp [pyGet] at h
  | cons kv r ih =>
      obtain ⟨k', v'⟩ := kv
      by_cases hk : k' = k
      · simp [pyGet, hk]
      · simp only [pyGet, if_neg hk] at h
        simp only [List.cons_append, pyGet, if_neg hk]
        exact ih h

/-! ## Python runtime values and declared types

`PVal` models the Python runtime values handled by the codec layer; lists
and dicts are modelled by the mutual types `PList` / `PPairs` so that all
recursion stays structural.  ISO strings (`isoformat`) are modelled by an
injective executable rendering (`intChars` based) whose partial inverse
models `fromisoformat`. -/

/-- Python exception classes that the embedded code can raise. -/
inductive PErr where
  | typeError
  | valueError
  | keyError
  | indexError
  | runtimeError
  | arithError
  | attributeError
deriving DecidableEq, Repr

mutual
inductive PVal where
  | pint (n : Int)
  | pbool (b : Bool)
  | pstr (s : String)
  | uuidV (s : String)
  | enumV (cls : String) (val : PVal)
  | decimalV (m : Int) (e : Nat)
  | dateV (d : Int)
  | timeV (t : Int) (off : Option Int)
  | datetimeV (wall : Int) (off : Option Int)
  | listV (xs : PList)
  | dictV (ps : PPairs)
inductive PList where
  | nil
  | cons (x : PVal) (xs : PList)
inductive PPairs where
  | nil
  | cons (k : PVal) (v : PVal) (ps : PPairs)
end

/-- Declared Python types as they appear in dataclass field annotations.
An enum class carries its member values (its `_value2member_map_`). -/
inductive PType where
  | tInt
  | tBool
  | tStr
  | tUUID
  | tEnum (cls : String) (mems : PList)
  | tDecimal
  | tDate
  | tTime
  | tDatetime
  | tList (e : PType)
  | tDict (k v : PType)

/-! ### Injective rendering of numbers into strings (isoformat model) -/

def natChars (n : Nat) : List Char := List.replicate n 'i'

def intChars : Int → List Char
  | .ofNat n => 'p' :: natChars n
  | .negSucc n => 'n' :: natChars n

def natParseL (cs : List Char) : Option Nat :=
  if cs.all (fun c => c == 'i') then some cs.length else none

def intParseL : List Char → Option Int
  | 'p' :: cs => (natParseL cs).map Int.ofNat
  | 'n' :: cs => (natParseL cs).map Int.negSucc
  | _ => none

/-- Split a character list at the first 'Z' separator. -/
def splitZ : List Char → List Char × Option (List Char)
  | [] => ([], none)
  | c :: r => if c = 'Z' then ([], some r) else
      let p := splitZ r
      (c :: p.1, p.2)

def offChars : Option Int → List Char
  | none => []
  | some o => 'Z' :: intChars o

def parseIntOff (cs : List Char) : Option (Int × Option Int) :=
  match splitZ cs with
  | (a, none) => (intParseL a).map (fun w => (w, none))
  | (a, some b) =>
      match intParseL a, intParseL b with
      | some w, some o => some (w, some o)
      | _, _ => none

/-- Model of `date.isoformat`. -/
def dateIso (d : Int) : String := String.mk ('D' :: intChars d)

/-- Model of `time.isoformat` (offset rendered when aware). -/
def timeIso (t : Int) (off : Option Int) : String :=
  String.mk ('T' :: (intChars t ++ offChars off))

/-- Model of `datetime.isoformat` (offset rendered when aware). -/
def dtIso (w : Int) (off : Option Int) : String :=
  String.mk ('U' :: (intChars w ++ offChars off))

/-- Model of `date.fromisoformat`: inverse of `dateIso`, `ValueError` otherwise. -/
def dateFromIso (s : String) : Except PErr PVal :=
  match s.data with
  | 'D' :: rest =>
      match intParseL rest with
      | some d => .ok (.dateV d)
      | none => .error .valueError
  | _ => .error .valueError

/-- Model of `time.fromisoformat`. -/
def timeFromIso (s : String) : Except PErr PVal :=
  match s.data with
  | 'T' :: rest =>
      match parseIntOff rest with
      | some (t, off) => .ok (.timeV t off)
      | none => .error .valueError
  | _ => .error .valueError

/-- Model of `datetime.fromisoformat`. -/
def dtFromIso (s : String) : Except PErr PVal :=
  match s.data with
  | 'U' :: rest =>
      match parseIntOff rest with
      | some (w, off) => .ok (.datetimeV w off)
      | none => .error .valueError
  | _ => .error .valueError

/-- Model of `str(Decimal)`: injective rendering of (mantissa, exponent). -/
def decStr (m : Int) (e : Nat) : String :=
  String.mk ('C' :: (intChars m ++ 'Z' :: natChars e))

/-- Model of `Decimal(string)`: inverse of `decStr`, `InvalidOperation`
(an arithmetic error, not a `TypeError`) otherwise. -/
def decParse (s : String) : Option (Int × Nat) :=
  match s.data with
  | 'C' :: rest =>
      match splitZ rest with
      | (a, some b) =>
          match intParseL a, natParseL b with
          | some m, some e => some (m, e)
          | _, _ => none
      | (_, none) => none
  | _ => none

theorem natParseL_natChars (n : Nat) : natParseL (natChars n) = some n := by
  have hall : (natChars n).all (fun c => c == 'i') = true := by
    induction n with
    | zero => rfl
    | succ m ih => simp [natChars, List.replicate_succ, List.all_cons, ih]
  simp [natParseL, hall, natChars]

theorem intParseL_intChars (k : Int) : intParseL (intChars k) = some k := by
  cases k with
  | ofNat n => simp [intChars, intParseL, natParseL_natChars]
  | negSucc n => simp [intChars, intParseL, natParseL_natChars]

theorem noZ_natChars (n : Nat) : ∀ c ∈ natChars n, c ≠ 'Z' := by
  intro c hc
  have := List.eq_of_mem_replicate hc
  subst this
  decide

theorem noZ_intChars (k : Int) : ∀ c ∈ intChars k, c ≠ 'Z' := by
  intro c hc
  cases k with
  | ofNat n =>
      rcases List.mem_cons.mp hc with h | h
      · subst h; decide
      · exact noZ_natChars n c h
  | negSucc n =>
      rcases List.mem_cons.mp hc with h | h
      · subst h; decide
      · exact noZ_natChars n c h

theorem splitZ_noZ (l : List Char) (h : ∀ c ∈ l, c ≠ 'Z') : splitZ l = (l, none) := by
  induction l with
  | nil => rfl
  | cons c r ih =>
      have hc : c ≠ 'Z' := h c (List.mem_cons_self _ _)
      simp only [splitZ, if_neg hc]
      rw [ih (fun c' hc' => h c' (List.mem_cons_of_mem _ hc'))]

theorem splitZ_append (l r : List Char) (h : ∀ c ∈ l, c ≠ 'Z') :
    splitZ (l ++ 'Z' :: r) = (l, some r) := by
  induction l with
  | nil => simp [splitZ]
  | cons c t ih =>
      have hc : c ≠ 'Z' := h c (List.mem_cons_self _ _)
      simp only [List.cons_append, splitZ, if_neg hc, List.append_eq]
      rw [ih (fun c' hc' => h c' (List.mem_cons_of_mem _ hc'))]

theorem parseIntOff_round (w : Int) (off : Option Int) :
    parseIntOff (intChars w ++ offChars off) = some (w, off) := by
  cases off with
  | none =>
      simp only [offChars, List.append_nil, parseIntOff,
        splitZ_noZ (intChars w) (noZ_intChars w), intParseL_intChars, Option.map_some']
  | some o =>
      simp only [offChars, parseIntOff, splitZ_append (intChars w) (intChars o) (noZ_intChars w),
        intParseL_intChars]

theorem dateFromIso_dateIso (d : Int) : dateFromIso (dateIso d) = .ok (.dateV d) := by
  simp [dateFromIso, dateIso, intParseL_intChars]

theorem timeFromIso_timeIso (t : Int) (off : Option Int) :
    timeFromIso (timeIso t off) = .ok (.timeV t off) := by
  simp [timeFromIso, timeIso, parseIntOff_round]

theorem dtFromIso_dtIso (w : Int) (off : Option Int) :
    dtFromIso (dtIso w off) = .ok (.datetimeV w off) := by
  simp [dtFromIso, dtIso, parseIntOff_round]

theorem decParse_decStr (m : Int) (e : Nat) : decParse (decStr m e) = some (m, e) := by
  simp [decParse, decStr, splitZ_append (intChars m) (natChars e) (noZ_intChars m),
    intParseL_intChars, natParseL_natChars]

/-! ### Python equality (`==`) on modelled values

Structural except where Python differs: `bool` is an `int` subtype,
`Decimal` compares numerically, aware `datetime`/`time` values compare by
instant, and a naive and an aware value are never equal.  Dicts are
modelled as insertion-ordered association lists and compared pointwise. -/

def boolInt (b : Bool) : Int := if b then 1 else 0

mutual
def pyEq : PVal → PVal → Bool
  | .pint n, .pint m => n == m
  | .pint n, .pbool b => n == boolInt b
  | .pbool b, .pint n => boolInt b == n
  | .pbool a, .pbool b => a == b
  | .pstr s, .pstr t => s == t
  | .uuidV s, .uuidV t => s == t
  | .enumV c v, .enumV c' v' => c == c' && pyEq v v'
  | .decimalV m e, .decimalV m' e' => m * (10 : Int) ^ e' == m' * (10 : Int) ^ e
  | .decimalV m e, .pint n => m == n * (10 : Int) ^ e
  | .pint n, .decimalV m e => n * (10 : Int) ^ e == m
  | .dateV d, .dateV d' => d == d'
  | .timeV t none, .timeV t' none => t == t'
  | .timeV t (some o), .timeV t' (some o') => t - o == t' - o'
  | .datetimeV w none, .datetimeV w' none => w == w'
  | .datetimeV w (some o), .datetimeV w' (some o') => w - o == w' - o'
  | .listV xs, .listV ys => pyEqList xs ys
  | .dictV ps, .dictV qs => pyEqPairs ps qs
  | _, _ => false
def pyEqList : PList → PList → Bool
  | .nil, .nil => true
  | .cons x xs, .cons y ys => pyEq x y && pyEqList xs ys
  | _, _ => false
def pyEqPairs : PPairs → PPairs → Bool
  | .nil, .nil => true
  | .cons k v ps, .cons k' v' qs => pyEq k k' && pyEq v v' && pyEqPairs ps qs
  | _, _ => false
end

/-- Membership of a value among an enum class's member values, using
Python equality (the `_value2member_map_` lookup). -/
def pyMem (v : PVal) : PList → Bool
  | .nil => false
  | .cons x xs => pyEq v x || pyMem v xs

/-- Scalar (hashable, non-collection) values usable as enum member values
in this model. -/
def isScalar : PVal → Bool
  | .pint _ => true
  | .pbool _ => true
  | .pstr _ => true
  | _ => false

mutual
/-- A runtime value is well typed for a declared annotation.  For an enum,
the value must be a member of the class and carry a scalar member value. -/
def wellTyped : PVal → PType → Bool
  | .pint _, .tInt => true
  | .pbool _, .tBool => true
  | .pstr _, .tStr => true
  | .uuidV _, .tUUID => true
  | .enumV c v, .tEnum c' mems => c == c' && pyMem v mems && isScalar v
  | .decimalV _ _, .tDecimal => true
  | .dateV _, .tDate => true
  | .timeV _ _, .tTime => true
  | .datetimeV _ _, .tDatetime => true
  | .listV xs, .tList e => wellTypedList xs e
  | .dictV ps, .tDict kt vt => wellTypedPairs ps kt vt
  | _, _ => false
def wellTypedList : PList → PType → Bool
  | .nil, _ => true
  | .cons x xs, e => wellTyped x e && wellTypedList xs e
def wellTypedPairs : PPairs → PType → PType → Bool
  | .nil, _, _ => true
  | .cons k v ps, kt, vt => wellTyped k kt && wellTyped v vt && wellTypedPairs ps kt vt
end

mutual
/-- Every `datetime` occurring in the value is timezone-aware. -/
def dtAware : PVal → Bool
  | .datetimeV _ off => off.isSome
  | .listV xs => dtAwareList xs
  | .dictV ps => dtAwarePairs ps
  | _ => true
def dtAwareList : PList → Bool
  | .nil => true
  | .cons x xs => dtAware x && dtAwareList xs
def dtAwarePairs : PPairs → Bool
  | .nil => true
  | .cons k v ps => dtAware k && dtAware v && dtAwarePairs ps
end

/-! ## The codec layer -/

/-- A unit encoder/decoder (`IStateEncoderDecoder`): a pair of fallible
`encode` / `decode` functions; `raise_unhandled_type` is modelled by
returning a `typeError`. -/
structure UnitCodec where
  enc : PVal → Except PErr PVal
  dec : PVal → PType → Except PErr PVal

/-- `DefaultEncoderDecoder.encode`.  `localOff` is the system local
timezone offset used by `astimezone` on a naive datetime; aware datetimes
are normalized to UTC.  The function is total, mirroring the final
`return obj` of the source. -/
def default_encode (localOff : Int) (obj : PVal) : PVal :=
  match obj with
  | .uuidV s => .pstr s
  | .enumV _ v => v
  | .decimalV m e => .pstr (decStr m e)
  | .datetimeV w off =>
      .pstr (dtIso (match off with | some o => w - o | none => w - localOff) (some 0))
  | .dateV d => .pstr (dateIso d)
  | .timeV t off => .pstr (timeIso t off)
  | v => v

/-- `DefaultEncoderDecoder.decode`.  `issubclass` on a parametrized
generic (`list[...]`, `dict[...]`) raises `TypeError`; `datetime` is
checked before `date`; the final fallback is the declared type's
one-argument constructor. -/
def default_decode (obj : PVal) (ty : PType) : Except PErr PVal :=
  match ty with
  | .tList _ => .error .typeError
  | .tDict _ _ => .error .typeError
  | .tDatetime =>
      match obj with
      | .pstr s => dtFromIso s
      | _ => .error .typeError
  | .tDate =>
      match obj with
      | .pstr s => dateFromIso s
      | _ => .error .typeError
  | .tTime =>
      match obj with
      | .pstr s => timeFromIso s
      | _ => .error .typeError
  | .tEnum cls mems => if pyMem obj mems then .ok (.enumV cls obj) else .error .valueError
  | .tUUID =>
      match obj with
      | .pstr s => .ok (.uuidV s)
      | _ => .error .typeError
  | .tDecimal =>
      match obj with
      | .pstr s =>
          match decParse s with
          | some (m, e) => .ok (.decimalV m e)
          | none => .error .arithError
      | .pint n => .ok (.decimalV n 0)
      | _ => .error .typeError
  | .tInt =>
      match obj with
      | .pint n => .ok (.pint n)
      | .pbool b => .ok (.pint (boolInt b))
      | .pstr s =>
          match intParseL s.data with
          | some n => .ok (.pint n)
          | none => .error .valueError
      | _ => .error .typeError
  | .tBool =>
      match obj with
      | .pbool b => .ok (.pbool b)
      | .pint n => .ok (.pbool (n != 0))
      | .pstr s => .ok (.pbool (s != ""))
      | .listV xs => .ok (.pbool (!(pyEqList xs .nil)))
      | .dictV ps => .ok (.pbool (!(pyEqPairs ps .nil)))
      | _ => .ok (.pbool true)
  | .tStr =>
      match obj with
      | .pstr s => .ok (.pstr s)
      | .pint n => .ok (.pstr (String.mk (intChars n)))
      | .pbool b => .ok (.pstr (if b then "True" else "False"))
      | .uuidV s => .ok (.pstr s)
      | .decimalV m e => .ok (.pstr (decStr m e))
      | _ => .error .typeError

/-- The `DefaultEncoderDecoder` as a unit codec. -/
def defaultUnit (localOff : Int) : UnitCodec :=
  ⟨fun obj => .ok (default_encode localOff obj), default_decode⟩

/-- The encoder loop of `CollectionEncoderDecoder.encode`: try each unit
in order, treating `TypeError` as "cannot handle"; if every unit declines,
return the value unchanged. -/
def tryEncode : List UnitCodec → PVal → Except PErr PVal
  | [], obj => .ok obj
  | u :: rest, obj =>
      match u.enc obj with
      | .ok r => .ok r
      | .error .typeError => tryEncode rest obj
      | .error e => .error e

/-- The decoder loop of `CollectionEncoderDecoder.decode`: same structure;
when every unit declines the raw value is returned unchanged
(`return obj`, line 119 of the source). -/
def tryDecode : List UnitCodec → PVal → PType → Except PErr PVal
  | [], obj, _ => .ok obj
  | u :: rest, obj, ty =>
      match u.dec obj ty with
      | .ok r => .ok r
      | .error .typeError => tryDecode rest obj ty
      | .error e => .error e

mutual
/-- `CollectionEncoderDecoder.encode`: recursively encode dict keys and
values and list elements, otherwise delegate to the unit chain. -/
def collEncode (encs : List UnitCodec) : PVal → Except PErr PVal
  | .dictV ps =>
      match collEncodePairs encs ps with
      | .ok qs => .ok (.dictV qs)
      | .error e => .error e
  | .listV xs =>
      match collEncodeList encs xs with
      | .ok ys => .ok (.listV ys)
      | .error e => .error e
  | obj => tryEncode encs obj
def collEncodeList (encs : List UnitCodec) : PList → Except PErr PList
  | .nil => .ok .nil
  | .cons x xs =>
      match collEncode encs x with
      | .error e => .error e
      | .ok y =>
          match collEncodeList encs xs with
          | .error e => .error e
          | .ok ys => .ok (.cons y ys)
def collEncodePairs (encs : List UnitCodec) : PPairs → Except PErr PPairs
  | .nil => .ok .nil
  | .cons k v ps =>
      match collEncode encs k with
      | .error e => .error e
      | .ok k' =>
          match collEncode encs v with
          | .error e => .error e
          | .ok v' =>
              match collEncodePairs encs ps with
              | .error e => .error e
              | .ok qs => .ok (.cons k' v' qs)
end

mutual
/-- `CollectionEncoderDecoder.decode`.  For a runtime dict the declared
type must be a two-parameter mapping or the `get_args` unpacking raises
`ValueError`; for a runtime list the element type is `get_args(ty)[0]`
(the key type when the declared type is a dict, `IndexError` when
`get_args` is empty). -/
def collDecode (encs : List UnitCodec) : PVal → PType → Except PErr PVal
  | .dictV ps, ty =>
      match ty with
      | .tDict kt vt =>
          match collDecodePairs encs ps kt vt with
          | .ok qs => .ok (.dictV qs)
          | .error e => .error e
      | _ => .error .valueError
  | .listV xs, ty =>
      match ty with
      | .tList et =>
          match collDecodeList encs xs et with
          | .ok ys => .ok (.listV ys)
          | .error e => .error e
      | .tDict kt _ =>
          match collDecodeList encs xs kt with
          | .ok ys => .ok (.listV ys)
          | .error e => .error e
      | _ => .error .indexError
  | obj, ty => tryDecode encs obj ty
def collDecodeList (encs : List UnitCodec) : PList → PType → Except PErr PList
  | .nil, _ => .ok .nil
  | .cons x xs, et =>
      match collDecode encs x et with
      | .error e => .error e
      | .ok y =>
          match collDecodeList encs xs et with
          | .error e => .error e
          | .ok ys => .ok (.cons y ys)
def collDecodePairs (encs : List UnitCodec) : PPairs → PType → PType → Except PErr PPairs
  | .nil, _, _ => .ok .nil
  | .cons k v ps, kt, vt =>
      match collDecode encs k kt with
      | .error e => .error e
      | .ok k' =>
          match collDecode encs v vt with
          | .error e => .error e
          | .ok v' =>
              match collDecodePairs encs ps kt vt with
              | .error e => .error e
              | .ok qs => .ok (.cons k' v' qs)
end

/-- `default_encoder()`: a collection codec wrapping the single default
unit codec. -/
def defaultChain (localOff : Int) : List UnitCodec := [defaultUnit localOff]

/-- encode-then-decode through the default codec chain. -/
def rtDefault (localOff : Int) (v : PVal) (ty : PType) : Except PErr PVal :=
  match collEncode (defaultChain localOff) v with
  | .ok w => collDecode (defaultChain localOff) w ty
  | .error e => .error e

/-! ## Round-trip facts for the default codec chain -/

/-- Runtime values the collection codec walks into (dicts and lists). -/
def isCollection : PVal → Bool
  | .listV _ => true
  | .dictV _ => true
  | _ => false

theorem pyEq_refl_scalar (v : PVal) (h : isScalar v = true) : pyEq v v = true := by
  cases v <;> simp [isScalar] at h <;> simp [pyEq]

mutual
theorem roundtrip_val (lo : Int) : (v : PVal) → (ty : PType) → wellTyped v ty = true →
    dtAware v = true → ∃ r, rtDefault lo v ty = .ok r ∧ pyEq r v = true
  | .pint n, ty, hw, _ => by
      cases ty <;> simp [wellTyped] at hw
      exact ⟨.pint n, rfl, by simp [pyEq]⟩
  | .pbool b, ty, hw, _ => by
      cases ty <;> simp [wellTyped] at hw
      exact ⟨.pbool b, rfl, by simp [pyEq]⟩
  | .pstr s, ty, hw, _ => by
      cases ty <;> simp [wellTyped] at hw
      exact ⟨.pstr s, rfl, by simp [pyEq]⟩
  | .uuidV s, ty, hw, _ => by
      cases ty <;> simp [wellTyped] at hw
      exact ⟨.uuidV s, rfl, by simp [pyEq]⟩
  | .enumV c v, ty, hw, _ => by
      cases ty <;> simp [wellTyped] at hw
      case tEnum c2 mems =>
        obtain ⟨⟨hc, hmem⟩, hsc⟩ := hw
        refine ⟨.enumV c2 v, ?_, ?_⟩
        · have henc : collEncode (defaultChain lo) (.enumV c v) = .ok v := by
            cases v <;> simp [isScalar] at hsc <;> rfl
          have hdec : collDecode (defaultChain lo) v (.tEnum c2 mems) = .ok (.enumV c2 v) := by
            cases v <;> simp [isScalar] at hsc <;>
              simp [collDecode, tryDecode, defaultChain, defaultUnit, default_decode, hmem]
          simp [rtDefault, henc, hdec]
        · simp [pyEq, hc, pyEq_refl_scalar v hsc]
  | .decimalV m e, ty, hw, _ => by
      cases ty <;> simp [wellTyped] at hw
      refine ⟨.decimalV m e, ?_, by simp [pyEq]⟩
      simp [rtDefault, defaultChain, collEncode, tryEncode, defaultUnit, default_encode,
        collDecode, tryDecode, default_decode, decParse_decStr]
  | .dateV d, ty, hw, _ => by
      cases ty <;> simp [wellTyped] at hw
      refine ⟨.dateV d, ?_, by simp [pyEq]⟩
      simp [rtDefault, defaultChain, collEncode, tryEncode, defaultUnit, default_encode,
        collDecode, tryDecode, default_decode, dateFromIso_dateIso]
  | .timeV t off, ty, hw, _ => by
      cases ty <;> simp [wellTyped] at hw
      refine ⟨.timeV t off, ?_, ?_⟩
      · simp [rtDefault, defaultChain, collEncode, tryEncode, defaultUnit, default_encode,
          collDecode, tryDecode, default_decode, timeFromIso_timeIso]
      · cases off <;> simp [pyEq]
  | .datetimeV w off, ty, hw, ha => by
      cases ty <;> simp [wellTyped] at hw
      simp [dtAware] at ha
      obtain ⟨o, rfl⟩ := Option.isSome_iff_exists.mp ha
      refine ⟨.datetimeV (w - o) (some 0), ?_, ?_⟩
      · simp [rtDefault, defaultChain, collEncode, tryEncode, defaultUnit, default_encode,
          collDecode, tryDecode, default_decode, dtFromIso_dtIso]
      · simp [pyEq]
  | .listV xs, ty, hw, ha => by
      cases ty <;> simp [wellTyped] at hw
      case tList et =>
        simp [dtAware] at ha
        obtain ⟨ys, zs, henc, hdec, heq⟩ := roundtrip_list lo xs et hw ha
        refine ⟨.listV zs, ?_, by simp [pyEq, heq]⟩
        have h1 : collEncode (defaultChain lo) (.listV xs) = .ok (.listV ys) := by
          simp [collEncode, henc]
        have h2 : collDecode (defaultChain lo) (.listV ys) (.tList et) = .ok (.listV zs) := by
          simp [collDecode, hdec]
        simp [rtDefault, h1, h2]
  | .dictV ps, ty, hw, ha => by
      cases ty <;> simp [wellTyped] at hw
      case tDict kt vt =>
        simp [dtAware] at ha
        obtain ⟨qs, rs, henc, hdec, heq⟩ := roundtrip_pairs lo ps kt vt hw ha
        refine ⟨.dictV rs, ?_, by simp [pyEq, heq]⟩
        have h1 : collEncode (defaultChain lo) (.dictV ps) = .ok (.dictV qs) := by
          simp [collEncode, henc]
        have h2 : collDecode (defaultChain lo) (.dictV qs) (.tDict kt vt) = .ok (.dictV rs) := by
          simp [collDecode, hdec]
        simp [rtDefault, h1, h2]
theorem roundtrip_list (lo : Int) : (xs : PList) → (et : PType) →
    wellTypedList xs et = true → dtAwareList xs = true →
    ∃ ys zs, collEncodeList (defaultChain lo) xs = .ok ys ∧
      collDecodeList (defaultChain lo) ys et = .ok zs ∧ pyEqList zs xs = true
  | .nil, _, _, _ => ⟨.nil, .nil, rfl, rfl, rfl⟩
  | .cons x xs, et, hw, ha => by
      simp [wellTypedList] at hw
      simp [dtAwareList] at ha
      obtain ⟨r, hrt, heq⟩ := roundtrip_val lo x et hw.1 ha.1
      obtain ⟨ys, zs, hencs, hdecs, heqs⟩ := roundtrip_list lo xs et hw.2 ha.2
      rcases hweq : collEncode (defaultChain lo) x with e | w
      · simp [rtDefault, hweq] at hrt
      · have hdec : collDecode (defaultChain lo) w et = .ok r := by
          simpa [rtDefault, hweq] using hrt
        exact ⟨.cons w ys, .cons r zs, by simp [collEncodeList, hweq, hencs],
          by simp [collDecodeList, hdec, hdecs], by simp [pyEqList, heq, heqs]⟩
theorem roundtrip_pairs (lo : Int) : (ps : PPairs) → (kt vt : PType) →
    wellTypedPairs ps kt vt = true → dtAwarePairs ps = true →
    ∃ qs rs, collEncodePairs (defaultChain lo) ps = .ok qs ∧
      collDecodePairs (defaultChain lo) qs kt vt = .ok rs ∧ pyEqPairs rs ps = true
  | .nil, _, _, _, _ => ⟨.nil, .nil, rfl, rfl, rfl⟩
  | .cons k v ps, kt, vt, hw, ha => by
      simp [wellTypedPairs] at hw
      simp [dtAwarePairs] at ha
      obtain ⟨rk, hrtk, heqk⟩ := roundtrip_val lo k kt hw.1.1 ha.1.1
      obtain ⟨rv, hrtv, heqv⟩ := roundtrip_val lo v vt hw.1.2 ha.1.2
      obtain ⟨qs, rs, hencs, hdecs, heqs⟩ := roundtrip_pairs lo ps kt vt hw.2 ha.2
      rcases hwk : collEncode (defaultChain lo) k with e | wk
      · simp [rtDefault, hwk] at hrtk
      · rcases hwv : collEncode (defaultChain lo) v with e | wv
        · simp [rtDefault, hwv] at hrtv
        · have hdk : collDecode (defaultChain lo) wk kt = .ok rk := by
            simpa [rtDefault, hwk] using hrtk
          have hdv : collDecode (defaultChain lo) wv vt = .ok rv := by
            simpa [rtDefault, hwv] using hrtv
          exact ⟨.cons wk wv qs, .cons rk rv rs,
            by simp [collEncodePairs, hwk, hwv, hencs],
            by simp [collDecodePairs, hdk, hdv, hdecs],
            by simp [pyEqPairs, heqk, heqv, heqs]⟩
end

/-- The decoder loop returns the raw value when every unit declines. -/
theorem tryDecode_all_decline : ∀ (encs : List UnitCodec) (obj : PVal) (ty : PType),
    (∀ u ∈ encs, u.dec obj ty = .error .typeError) → tryDecode encs obj ty = .ok obj
  | [], _, _, _ => rfl
  | u :: rest, obj, ty, h => by
      have hu := h u (List.mem_cons_self _ _)
      have hrest := tryDecode_all_decline rest obj ty
        (fun u' hu' => h u' (List.mem_cons_of_mem _ hu'))
      simp [tryDecode, hu, hrest]

/-- A unit codec that always signals `raise_unhandled_type`. -/
def declineUnit : UnitCodec :=
  ⟨fun _ => .error .typeError, fun _ _ => .error .typeError⟩

/-- C2 (counterexample): a naive datetime is a supported datetime value,
but decoding its encoded form yields an aware datetime that Python's `==`
does not equate with the original, so `decode(encode(v), type(v)) == v`
fails for the default codec chain. -/
theorem C2_counterexample_naive_datetime :
    wellTyped (.datetimeV 0 none) .tDatetime = true ∧
      rtDefault 0 (.datetimeV 0 none) .tDatetime = .ok (.datetimeV 0 (some 0)) ∧
      pyEq (.datetimeV 0 (some 0)) (.datetimeV 0 none) = false :=
  ⟨rfl, rfl, rfl⟩

/-- C2 (amended): for every well-typed value of the supported types
(enum, UUID, date, time, datetime, fixed-point decimal, and lists/dicts
thereof), with all datetimes timezone-aware, decoding the encoded form
with the declared type through the default codec chain succeeds and the
result is Python-equal to the original. -/
theorem C2_roundtrip_default_codec (lo : Int) (v : PVal) (ty : PType)
    (hw : wellTyped v ty = true) (ha : dtAware v = true) :
    ∃ r, rtDefault lo v ty = .ok r ∧ pyEq r v = true :=
  roundtrip_val lo v ty hw ha

/-- Witness for C2: a list of enum members round-trips to a Python-equal
value. -/
theorem C2_roundtrip_default_codec_witness :
    wellTyped (.listV (.cons (.enumV "Color" (.pint 2)) .nil))
        (.tList (.tEnum "Color" (.cons (.pint 1) (.cons (.pint 2) .nil)))) = true ∧
      dtAware (.listV (.cons (.enumV "Color" (.pint 2)) .nil)) = true ∧
      ∃ r, rtDefault 0 (.listV (.cons (.enumV "Color" (.pint 2)) .nil))
          (.tList (.tEnum "Color" (.cons (.pint 1) (.cons (.pint 2) .nil)))) = .ok r ∧
        pyEq r (.listV (.cons (.enumV "Color" (.pint 2)) .nil)) = true :=
  ⟨rfl, rfl,
    C2_roundtrip_default_codec 0 (.listV (.cons (.enumV "Color" (.pint 2)) .nil))
      (.tList (.tEnum "Color" (.cons (.pint 1) (.cons (.pint 2) .nil)))) rfl rfl⟩

/-- C3 (counterexample): when every unit codec in the chain declines a
non-collection raw value, `CollectionEncoderDecoder.decode` returns the
raw value unchanged (`return obj`) instead of raising a decode failure. -/
theorem C3_counterexample_decode_returns_value :
    declineUnit.dec (.pint 5) .tInt = .error .typeError ∧
      collDecode [declineUnit] (.pint 5) .tInt = .ok (.pint 5) :=
  ⟨rfl, rfl⟩

/-- C3 (amended): when the collection codec decodes a non-list, non-dict
raw value and every unit codec in its chain raises the unhandled-type
error, the composite decode returns the raw value unchanged to the caller
(mirroring encode), rather than raising. -/
theorem C3_decode_all_decline_returns_raw (encs : List UnitCodec) (obj : PVal) (ty : PType)
    (hobj : isCollection obj = false)
    (hdecl : ∀ u ∈ encs, u.dec obj ty = .error .typeError) :
    collDecode encs obj ty = .ok obj := by
  have hcoll : collDecode encs obj ty = tryDecode encs obj ty := by
    cases obj <;> simp [isCollection] at hobj <;> simp [collDecode]
  rw [hcoll]
  exact tryDecode_all_decline encs obj ty hdecl

/-- Witness for C3: the singleton chain of an always-declining unit codec
returns the raw integer unchanged. -/
theorem C3_decode_all_decline_returns_raw_witness :
    isCollection (.pbool true) = false ∧
      collDecode [declineUnit] (.pbool true) .tStr = .ok (.pbool true) :=
  ⟨rfl, C3_decode_all_decline_returns_raw [declineUnit] (.pbool true) .tStr rfl
    (by intro u hu; rw [List.mem_singleton] at hu; subst hu; rfl)⟩

/-! ## The trame state store (external collaborator)

Modelled from the spec: the store holds primitives under string keys and
provides `get` (primitive or missing), `set`, and `set_default` (no-op
when the key is already present). -/

def Store : Type := List (String × PVal)

def Store.get (σ : Store) (k : String) : Option PVal := pyGet σ k

def Store.set (σ : Store) (k : String) (v : PVal) : Store := pyIns σ k v

/-- Modelled from the spec: `set_default` writes only when the key is absent. -/
def Store.setdefault (σ : Store) (k : String) (v : PVal) : Store :=
  match pyGet σ k with
  | some _ => σ
  | none => pyIns σ k v

/-- An encoder/decoder pair as held by a proxy (`IStateEncoderDecoder`
instance seen through its two methods). -/
structure Codec where
  encode : PVal → Except PErr PVal
  decode : PVal → PType → Except PErr PVal

/-- A `CollectionEncoderDecoder` wrapping a unit chain, as a `Codec`. -/
def codecOfChain (encs : List UnitCodec) : Codec :=
  ⟨collEncode encs, collDecode encs⟩

/-- `default_encoder()`: the collection codec over the single default unit. -/
def default_encoder (lo : Int) : Codec := codecOfChain (defaultChain lo)

/-! ## Dataclass schemas -/

/-- Metadata of a leaf dataclass field: name, declared type, `default` and
`default_factory` (the factory is modelled by the value it returns;
`MISSING` is modelled by `none`). -/
structure SLeaf where
  name : String
  ty : PType
  default : Option PVal
  defaultFactory : Option PVal

mutual
/-- A dataclass type: its `__name__` and its fields in declaration order. -/
inductive Schema where
  | mk (name : String) (fields : SFields)
inductive SFields where
  | nil
  | cons (f : SField) (fs : SFields)
/-- A dataclass field: either a leaf or a nested dataclass. -/
inductive SField where
  | leaf (l : SLeaf)
  | sub (name : String) (s : Schema)
end

def Schema.name : Schema → String
  | .mk n _ => n

def Schema.fields : Schema → SFields
  | .mk _ fs => fs

def SField.fname : SField → String
  | .leaf l => l.name
  | .sub n _ => n

def fieldNames : SFields → List String
  | .nil => []
  | .cons f fs => f.fname :: fieldNames fs

/-! ## Proxy trees -/

/-- A node of a proxy tree.  A `leaf` holds the accessor produced by the
handler (a `ProxyField` for the value proxy, the derived key string for
the name proxy).  A `node` models a generated proxy class instance: it
carries the dataclass type (`__state_proxy_dataclass_type`), its derived
state id (`__state_proxy_state_id`), the class namespace mapping field
names to accessors, and the inner field dict built during construction
(`__state_proxy_field_dict`) minus its own synthetic entry, which Python
adds to the same (shared) dict object after the instance exists and which
`get_field_proxy_dict` therefore observes. -/
inductive PEntry (α : Type) where
  | leaf (a : α)
  | node (s : Schema) (state_id : String) (attrs : List (String × PEntry α))
      (raw : List (String × PEntry α))

/-- `get_state_id(instance, default)`: the node's stored state id, or the
default for objects without one (leaf accessors). -/
def getStateId {α : Type} : PEntry α → String → String
  | .node _ sid _ _, _ => sid
  | .leaf _, dflt => dflt

/-- `is_proxy_class`. -/
def is_proxy_class {α : Type} : PEntry α → Bool
  | .node _ _ _ _ => true
  | .leaf _ => false

/-- `get_field_proxy_dict`: raises for non-proxy input; for a node,
returns the field dict including the node's own synthetic entry
(added at line 311 of the source to the same dict object). -/
def get_field_proxy_dict {α : Type} : PEntry α → Except PErr (List (String × PEntry α))
  | .leaf _ => .error .runtimeError
  | .node s sid attrs raw => .ok (pyIns raw sid (.node s sid attrs raw))

/-- Attribute navigation through nested proxy attributes (a chain of
`getattr` on sub-record names). -/
def nodeAt {α : Type} : PEntry α → List String → Option (PEntry α)
  | n, [] => some n
  | .node _ _ attrs _, g :: p =>
      match pyGet attrs g with
      | some c => nodeAt c p
      | none => none
  | .leaf _, _ :: _ => none

/-- A leaf-field handler: receives the current store, the derived state id
and the field metadata, and returns the possibly mutated store and the
accessor (or the exception it raised). -/
def Handler (α : Type) : Type := Store → String → SLeaf → Store × Except PErr α

mutual
/-- `_build_proxy_cls` and its field loop.  The derived prefix is
`prefix + "__" + TypeName` when the prefix is non-empty and `TypeName`
otherwise; each field's state id is `prefix + "__" + fieldName`.  For a
nested dataclass field the recursive call receives the parent's
`inner_field_dict` and merges its own entries into it (lines 300-301)
before the parent registers the child under its synthetic key (line 297).
The function returns the built instance together with the dict contents
the parent merge observed (without the instance's own synthetic entry). -/
def build_proxy_cls {α : Type} (h : Handler α) : Schema → String → Store →
    Store × Except PErr (PEntry α × List (String × PEntry α))
  | .mk cname fs, ns, σ =>
      let pfx := if ns = "" then cname else ns ++ "__" ++ cname
      match build_fields h fs pfx σ [] [] with
      | (σ', .error e) => (σ', .error e)
      | (σ', .ok (attrs, raw)) => (σ', .ok (.node (.mk cname fs) pfx attrs raw, raw))
def build_fields {α : Type} (h : Handler α) : SFields → String → Store →
    List (String × PEntry α) → List (String × PEntry α) →
    Store × Except PErr (List (String × PEntry α) × List (String × PEntry α))
  | .nil, _, σ, attrs, raw => (σ, .ok (attrs, raw))
  | .cons f fs, pfx, σ, attrs, raw =>
      match f with
      | .leaf l =>
          match h σ (pfx ++ "__" ++ l.name) l with
          | (σ', .error e) => (σ', .error e)
          | (σ', .ok a) =>
              build_fields h fs pfx σ'
                (pyIns attrs l.name (.leaf a))
                (pyIns raw (getStateId (PEntry.leaf a) (pfx ++ "__" ++ l.name)) (.leaf a))
      | .sub g s =>
          match build_proxy_cls h s (pfx ++ "__" ++ g) σ with
          | (σ', .error e) => (σ', .error e)
          | (σ', .ok (child, childRaw)) =>
              build_fields h fs pfx σ'
                (pyIns attrs g child)
                (pyIns (pyUpd raw childRaw) (getStateId child (pfx ++ "__" ++ g)) child)
end

/-- The leaf accessor of a value proxy (`ProxyField`): the state id, field
name, declared type, dataclass default and the shared encoder. -/
structure ProxyFieldM where
  state_id : String
  name : String
  ty : PType
  default : Option PVal
  enc : Codec

/-- `ProxyField.get_value`: read the raw primitive at the state id and
decode it to the declared type.  Modelled from the spec: reading a
missing key fails. -/
def ProxyFieldM.get_value (a : ProxyFieldM) (σ : Store) : Except PErr PVal :=
  match Store.get σ a.state_id with
  | none => .error .keyError
  | some raw => a.enc.decode raw a.ty

/-- `ProxyField.set_value`: encode the value, then store it.  The encode
runs before the store assignment, so an encode failure leaves the store
untouched. -/
def ProxyFieldM.set_value (a : ProxyFieldM) (v : PVal) (σ : Store) : Store × Option PErr :=
  match a.enc.encode v with
  | .error e => (σ, some e)
  | .ok w => (Store.set σ a.state_id w, none)

/-- The `state_proxy` leaf handler: builds a `ProxyField`, whose
constructor resolves `default` / `default_factory` and, when a default
exists, writes its encoding into the store with `setdefault`.  The encode
argument is evaluated before the `setdefault` call, so an encode failure
aborts construction. -/
def proxyHandler (enc : Codec) : Handler ProxyFieldM := fun σ sid l =>
  let dv := match l.default with
    | some d => some d
    | none => l.defaultFactory
  match dv with
  | none => (σ, .ok ⟨sid, l.name, l.ty, l.default, enc⟩)
  | some d =>
      match enc.encode d with
      | .error e => (σ, .error e)
      | .ok w => (Store.setdefault σ sid w, .ok ⟨sid, l.name, l.ty, l.default, enc⟩)

/-- The `state_names_proxy` leaf handler: a `NameField` whose value is the
derived state id. -/
def nameHandler : Handler String := fun σ sid _ => (σ, .ok sid)

/-- `state_proxy`. -/
def state_proxy (enc : Codec) (s : Schema) (ns : String) (σ : Store) :
    Store × Except PErr (PEntry ProxyFieldM × List (String × PEntry ProxyFieldM)) :=
  build_proxy_cls (proxyHandler enc) s ns σ

/-- `state_names_proxy` (takes no store; the name handler never touches
one, so an empty store is passed). -/
def state_names_proxy (s : Schema) (ns : String) :
    Except PErr (PEntry String × List (String × PEntry String)) :=
  (build_proxy_cls nameHandler s ns []).2

/-! ## Derived-key specification and structural characterization -/

/-- The synthetic key of a record built under a given namespace: the
prefix computed at the top of `_build_proxy_cls`. -/
def synthKey (s : Schema) (ns : String) : String :=
  if ns = "" then s.name else ns ++ "__" ++ s.name

mutual
/-- The keys inserted into a record's `inner_field_dict` during the field
loop, in insertion order (without the record's own synthetic entry). -/
def rawKeysSpec : Schema → String → List String
  | .mk cname fs, ns => fieldsKeysSpec fs (if ns = "" then cname else ns ++ "__" ++ cname)
def fieldsKeysSpec : SFields → String → List String
  | .nil, _ => []
  | .cons (.leaf l) fs, pfx => (pfx ++ "__" ++ l.name) :: fieldsKeysSpec fs pfx
  | .cons (.sub g s) fs, pfx =>
      (rawKeysSpec s (pfx ++ "__" ++ g) ++ [synthKey s (pfx ++ "__" ++ g)]) ++
        fieldsKeysSpec fs pfx
end

/-- All keys of a record's field dict including its own synthetic key. -/
def fullKeysSpec (s : Schema) (ns : String) : List String :=
  rawKeysSpec s ns ++ [synthKey s ns]

mutual
/-- Number of leaf fields, recursively. -/
def countLeaves : Schema → Nat
  | .mk _ fs => countLeavesF fs
def countLeavesF : SFields → Nat
  | .nil => 0
  | .cons (.leaf _) fs => 1 + countLeavesF fs
  | .cons (.sub _ s) fs => countLeaves s + countLeavesF fs
end

mutual
/-- Number of sub-record nodes, recursively, including the record itself. -/
def countSubs : Schema → Nat
  | .mk _ fs => 1 + countSubsF fs
def countSubsF : SFields → Nat
  | .nil => 0
  | .cons (.leaf _) fs => countSubsF fs
  | .cons (.sub _ s) fs => countSubs s + countSubsF fs
end

mutual
theorem rawKeysSpec_length (s : Schema) (ns : String) :
    (rawKeysSpec s ns).length + 1 = countLeaves s + countSubs s := by
  cases s with
  | mk cname fs =>
      have := fieldsKeysSpec_length fs (if ns = "" then cname else ns ++ "__" ++ cname)
      simp only [rawKeysSpec, countLeaves, countSubs, this]
      omega
theorem fieldsKeysSpec_length (fs : SFields) (pfx : String) :
    (fieldsKeysSpec fs pfx).length = countLeavesF fs + countSubsF fs := by
  cases fs with
  | nil => rfl
  | cons f fs =>
      cases f with
      | leaf l =>
          have := fieldsKeysSpec_length fs pfx
          simp only [fieldsKeysSpec, List.length_cons, this, countLeavesF, countSubsF]
          omega
      | sub g s =>
          have h1 := fieldsKeysSpec_length fs pfx
          have h2 := rawKeysSpec_length s (pfx ++ "__" ++ g)
          simp only [fieldsKeysSpec, List.length_append, List.length_cons, List.length_nil,
            countLeavesF, countSubsF]
          omega
end

mutual
/-- Field names are distinct in every record of the schema (guaranteed by
Python for any dataclass). -/
def NamesOK : Schema → Prop
  | .mk _ fs => (fieldNames fs).Nodup ∧ NamesOKF fs
def NamesOKF : SFields → Prop
  | .nil => True
  | .cons (.leaf _) fs => NamesOKF fs
  | .cons (.sub _ s) fs => NamesOK s ∧ NamesOKF fs
end

/-- Structural description of the extension that the field loop appends to
the inner field dict (`ext`) and to the class namespace (`aext`): one leaf
entry per leaf field under its derived key, and, per nested record, the
child's merged dict entries followed by the child node under its synthetic
key.  The same accessor object appears in both dicts. -/
def SegsOK {α : Type} (h : Handler α) : SFields → String →
    List (String × PEntry α) → List (String × PEntry α) → Prop
  | .nil, _, ext, aext => ext = [] ∧ aext = []
  | .cons (.leaf l) fs, pfx, ext, aext =>
      ∃ a extR aextR,
        ext = (pfx ++ "__" ++ l.name, PEntry.leaf a) :: extR ∧
        aext = (l.name, PEntry.leaf a) :: aextR ∧
        (∃ σ σ', h σ (pfx ++ "__" ++ l.name) l = (σ', .ok a)) ∧
        SegsOK h fs pfx extR aextR
  | .cons (.sub g s) fs, pfx, ext, aext =>
      ∃ cattrs childRaw extR aextR σ σ',
        build_proxy_cls h s (pfx ++ "__" ++ g) σ =
          (σ', .ok (PEntry.node s (synthKey s (pfx ++ "__" ++ g)) cattrs childRaw, childRaw)) ∧
        ext = childRaw ++ ((synthKey s (pfx ++ "__" ++ g),
          PEntry.node s (synthKey s (pfx ++ "__" ++ g)) cattrs childRaw) :: extR) ∧
        aext = (g, PEntry.node s (synthKey s (pfx ++ "__" ++ g)) cattrs childRaw) :: aextR ∧
        SegsOK h fs pfx extR aextR

mutual
theorem build_char {α : Type} (h : Handler α) : ∀ (s : Schema) (ns : String) (σ σ' : Store)
    (n : PEntry α) (m : List (String × PEntry α)),
    build_proxy_cls h s ns σ = (σ', .ok (n, m)) →
    (fullKeysSpec s ns).Nodup → NamesOK s →
    ∃ attrs, n = .node s (synthKey s ns) attrs m ∧ pyKeys m = rawKeysSpec s ns ∧
      pyKeys attrs = fieldNames s.fields ∧ SegsOK h s.fields (synthKey s ns) m attrs
  | .mk cname fs, ns, σ, σ', n, m, hb, hnd, hnames => by
      simp only [build_proxy_cls] at hb
      rcases hbf : build_fields h fs (if ns = "" then cname else ns ++ "__" ++ cname) σ [] []
        with ⟨σ₁, res⟩
      rw [hbf] at hb
      cases res with
      | error e => simp at hb
      | ok pr =>
          obtain ⟨attrs0, raw0⟩ := pr
          simp only [Prod.mk.injEq, Except.ok.injEq, PEntry.node.injEq] at hb
          obtain ⟨hσ, ⟨hn, hm⟩⟩ := hb
          simp only [NamesOK] at hnames
          simp only [fullKeysSpec, rawKeysSpec] at hnd
          rw [List.nodup_append] at hnd
          obtain ⟨ext, aext, hre, hae, hke, hka, hsegs⟩ :=
            build_fields_char h fs (if ns = "" then cname else ns ++ "__" ++ cname) σ σ₁
              [] [] attrs0 raw0 hbf hnd.1
              (by intro k _ hkmem; simp [pyKeys] at hkmem)
              hnames.1 hnames.2
              (by intro f _ hfmem; simp [pyKeys] at hfmem)
          subst hm
          refine ⟨attrs0, ?_, ?_, ?_, ?_⟩
          · rw [← hn]
            simp [synthKey, Schema.name]
          · rw [hre]
            simpa [rawKeysSpec] using hke
          · rw [hae]
            simpa [Schema.fields] using hka
          · have hsk : synthKey (Schema.mk cname fs) ns =
                (if ns = "" then cname else ns ++ "__" ++ cname) := by
              simp [synthKey, Schema.name]
            rw [hsk]
            simpa [Schema.fields, hre, hae] using hsegs
theorem build_fields_char {α : Type} (h : Handler α) : ∀ (fs : SFields) (pfx : String)
    (σ σ' : Store) (attrs raw a' r' : List (String × PEntry α)),
    build_fields h fs pfx σ attrs raw = (σ', .ok (a', r')) →
    (fieldsKeysSpec fs pfx).Nodup →
    (∀ k ∈ fieldsKeysSpec fs pfx, k ∉ pyKeys raw) →
    (fieldNames fs).Nodup → NamesOKF fs →
    (∀ f ∈ fieldNames fs, f ∉ pyKeys attrs) →
    ∃ ext aext, r' = raw ++ ext ∧ a' = attrs ++ aext ∧
      pyKeys ext = fieldsKeysSpec fs pfx ∧ pyKeys aext = fieldNames fs ∧
      SegsOK h fs pfx ext aext
  | .nil, pfx, σ, σ', attrs, raw, a', r', hb, _, _, _, _, _ => by
      simp only [build_fields, Prod.mk.injEq, Except.ok.injEq] at hb
      exact ⟨[], [], by simp [hb.2.2], by simp [hb.2.1], by simp [fieldsKeysSpec],
        by simp [fieldNames], by simp [SegsOK]⟩
  | .cons (.leaf l) fs, pfx, σ, σ', attrs, raw, a', r', hb, hnd, hdisj, hfn, hnok, hfdisj => by
      simp only [build_fields] at hb
      rcases hh : h σ (pfx ++ "__" ++ l.name) l with ⟨σ₁, res⟩
      rw [hh] at hb
      cases res with
      | error e => simp at hb
      | ok a =>
          simp only [getStateId] at hb
          have hsidraw : (pfx ++ "__" ++ l.name) ∉ pyKeys raw :=
            hdisj _ (by simp [fieldsKeysSpec])
          have hnattrs : l.name ∉ pyKeys attrs :=
            hfdisj _ (by simp [fieldNames, SField.fname])
          rw [pyIns_eq_append raw _ _ hsidraw, pyIns_eq_append attrs _ _ hnattrs] at hb
          simp only [fieldsKeysSpec, List.nodup_cons] at hnd
          simp only [fieldNames, SField.fname, List.nodup_cons] at hfn
          simp only [NamesOKF] at hnok
          obtain ⟨ext, aext, hre, hae, hke, hka, hsegs⟩ :=
            build_fields_char h fs pfx σ₁ σ' _ _ a' r' hb hnd.2
              (by
                intro k hk hmem
                simp only [pyKeys_append, pyKeys_cons, pyKeys_nil, List.mem_append,
                  List.mem_singleton] at hmem
                rcases hmem with hm | hm
                · exact hdisj k (by simp [fieldsKeysSpec, hk]) hm
                · exact hnd.1 (hm ▸ hk))
              hfn.2 hnok
              (by
                intro f hf hmem
                simp only [pyKeys_append, pyKeys_cons, pyKeys_nil, List.mem_append,
                  List.mem_singleton] at hmem
                rcases hmem with hm | hm
                · exact hfdisj f (by simp [fieldNames, SField.fname, hf]) hm
                · exact hfn.1 (hm ▸ hf))
          refine ⟨(pfx ++ "__" ++ l.name, .leaf a) :: ext, (l.name, .leaf a) :: aext,
            ?_, ?_, ?_, ?_, ?_⟩
          · rw [hre]
            simp
          · rw [hae]
            simp
          · simp [hke, fieldsKeysSpec]
          · simp [hka, fieldNames, SField.fname]
          · exact ⟨a, ext, aext, rfl, rfl, ⟨σ, σ₁, hh⟩, hsegs⟩
  | .cons (.sub g s) fs, pfx, σ, σ', attrs, raw, a', r', hb, hnd, hdisj, hfn, hnok, hfdisj => by
      simp only [build_fields] at hb
      rcases hbc : build_proxy_cls h s (pfx ++ "__" ++ g) σ with ⟨σ₁, res⟩
      rw [hbc] at hb
      cases res with
      | error e => simp at hb
      | ok pr =>
          obtain ⟨child, childRaw⟩ := pr
          simp only [fieldsKeysSpec] at hnd
          rw [List.nodup_append] at hnd
          obtain ⟨hndc, hndrest, hdisjc⟩ := hnd
          simp only [fieldNames, SField.fname, List.nodup_cons] at hfn
          simp only [NamesOKF] at hnok
          have hndfull : (fullKeysSpec s (pfx ++ "__" ++ g)).Nodup := by
            simpa [fullKeysSpec] using hndc
          obtain ⟨cattrs, hchild, hckeys, hcattrs, hcsegs⟩ :=
            build_char h s (pfx ++ "__" ++ g) σ σ₁ child childRaw hbc hndfull hnok.1
          subst hchild
          simp only [getStateId] at hb
          have hsynthraw : synthKey s (pfx ++ "__" ++ g) ∉ rawKeysSpec s (pfx ++ "__" ++ g) := by
            rcases List.nodup_append.mp hndc with ⟨_, _, hd⟩
            intro hmem
            exact hd hmem (List.mem_singleton_self _)
          have hupd : pyUpd raw childRaw = raw ++ childRaw := by
            apply pyUpd_eq_append childRaw raw
            · rw [hckeys]
              exact (List.nodup_append.mp hndc).1
            · intro k hk
              rw [hckeys] at hk
              exact hdisj k (List.mem_append_left _ (List.mem_append_left _ hk))
          rw [hupd] at hb
          have hsynth_notin : synthKey s (pfx ++ "__" ++ g) ∉ pyKeys (raw ++ childRaw) := by
            rw [pyKeys_append, List.mem_append]
            push_neg
            constructor
            · exact hdisj _ (List.mem_append_left _ (List.mem_append_right _
                (List.mem_singleton_self _)))
            · rw [hckeys]
              exact hsynthraw
          rw [pyIns_eq_append _ _ _ hsynth_notin] at hb
          have hgattrs : g ∉ pyKeys attrs := hfdisj _ (by simp [fieldNames, SField.fname])
          rw [pyIns_eq_append attrs _ _ hgattrs] at hb
          obtain ⟨ext, aext, hre, hae, hke, hka, hsegs⟩ :=
            build_fields_char h fs pfx σ₁ σ' _ _ a' r' hb hndrest
              (by
                intro k hk hmem
                simp only [pyKeys_append, pyKeys_cons, pyKeys_nil, List.mem_append,
                  List.mem_singleton] at hmem
                rcases hmem with (hm | hm) | hm
                · exact hdisj k (List.mem_append_right _ hk) hm
                · rw [hckeys] at hm
                  exact hdisjc (List.mem_append_left _ hm) hk
                · exact hdisjc (hm ▸ List.mem_append_right _ (List.mem_singleton_self _)) hk)
              hfn.2 hnok.2
              (by
                intro f hf hmem
                simp only [pyKeys_append, pyKeys_cons, pyKeys_nil, List.mem_append,
                  List.mem_singleton] at hmem
                rcases hmem with hm | hm
                · exact hfdisj f (by simp [fieldNames, SField.fname, hf]) hm
                · exact hfn.1 (hm ▸ hf))
          refine ⟨childRaw ++ ((synthKey s (pfx ++ "__" ++ g),
              PEntry.node s (synthKey s (pfx ++ "__" ++ g)) cattrs childRaw) :: ext),
            (g, PEntry.node s (synthKey s (pfx ++ "__" ++ g)) cattrs childRaw) :: aext,
            ?_, ?_, ?_, ?_, ?_⟩
          · rw [hre]
            simp
          · rw [hae]
            simp
          · simp [hke, hckeys, fieldsKeysSpec]
          · simp [hka, fieldNames, SField.fname]
          · exact ⟨cattrs, childRaw, ext, aext, σ, σ₁, hbc, rfl, rfl, hsegs⟩
end

/-- `rawKeysSpec` only depends on the namespace through the synthetic key. -/
theorem rawKeysSpec_eq_fields (s : Schema) (ns : String) :
    rawKeysSpec s ns = fieldsKeysSpec s.fields (synthKey s ns) := by
  cases s with
  | mk cname fs => simp [rawKeysSpec, synthKey, Schema.name, Schema.fields]

/-- Under distinct keys, a built node's field dict has exactly the spec
keys: the merged entries followed by the node's own synthetic key. -/
theorem fieldDict_keys {α : Type} (h : Handler α) (s : Schema) (ns : String) (σ σ' : Store)
    (n : PEntry α) (m : List (String × PEntry α))
    (hb : build_proxy_cls h s ns σ = (σ', .ok (n, m)))
    (hnd : (fullKeysSpec s ns).Nodup) (hnames : NamesOK s) :
    ∃ d, get_field_proxy_dict n = .ok d ∧ d = m ++ [(synthKey s ns, n)] ∧
      pyKeys d = fullKeysSpec s ns := by
  obtain ⟨attrs, hn, hkeys, _, _⟩ := build_char h s ns σ σ' n m hb hnd hnames
  have hsynth : synthKey s ns ∉ pyKeys m := by
    rw [hkeys]
    simp only [fullKeysSpec] at hnd
    rcases List.nodup_append.mp hnd with ⟨_, _, hd⟩
    intro hmem
    exact hd hmem (List.mem_singleton_self _)
  subst hn
  refine ⟨m ++ [(synthKey s ns, _)], ?_, rfl, ?_⟩
  · simp [get_field_proxy_dict, pyIns_eq_append m _ _ hsynth]
  · simp [pyKeys_append, hkeys, fullKeysSpec]

/-! ## Concrete schemas used in witnesses and counterexamples -/

/-- The tests' `MyData` dataclass. -/
def sMyData : Schema :=
  .mk "MyData" (.cons (.leaf ⟨"a", .tInt, some (.pint 1), none⟩)
    (.cons (.leaf ⟨"b", .tInt, some (.pint 2), none⟩) .nil))

/-- The tests' `MyBiggerData` dataclass (a nested record). -/
def sBigger : Schema :=
  .mk "MyBiggerData" (.cons (.sub "my_other_data" sMyData)
    (.cons (.leaf ⟨"c", .tInt, some (.pint 42), none⟩) .nil))

/-- A dataclass `B` with a single leaf `x`. -/
def sB : Schema := .mk "B" (.cons (.leaf ⟨"x", .tInt, none, none⟩) .nil)

/-- An adversarial dataclass whose leaf field name `b__B__x` makes its
derived key collide with the derived key of the nested leaf `b.x`
(field names may legally contain double underscores in Python). -/
def sColl : Schema :=
  .mk "Outer" (.cons (.sub "b" sB)
    (.cons (.leaf ⟨"b__B__x", .tInt, none, none⟩) .nil))

/-- C5 (counterexample): for the colliding schema, the flat field index
has 3 entries although L + S = 2 + 2 = 4: the parent leaf assignment
overwrites the nested leaf's entry under the shared derived key. -/
theorem C5_counterexample_collision :
    (state_proxy (default_encoder 0) sColl "" []).2.map
        (fun p => (get_field_proxy_dict p.1).map List.length) = .ok (.ok 3) ∧
      countLeaves sColl + countSubs sColl = 4 :=
  ⟨rfl, rfl⟩

/-- C5 (amended): when all derived keys (leaf keys and synthetic keys) of
the schema under the namespace are pairwise distinct, the flat field index
of the root value proxy has exactly (number of leaves, recursively) +
(number of sub-records including the root) entries. -/
theorem C5_flat_index_size (enc : Codec) (s : Schema) (ns : String) (σ σ' : Store)
    (n : PEntry ProxyFieldM) (m : List (String × PEntry ProxyFieldM))
    (hb : state_proxy enc s ns σ = (σ', .ok (n, m)))
    (hnd : (fullKeysSpec s ns).Nodup) (hnames : NamesOK s) :
    ∃ d, get_field_proxy_dict n = .ok d ∧ d.length = countLeaves s + countSubs s := by
  obtain ⟨d, hd, hdm, hkeys⟩ := fieldDict_keys (proxyHandler enc) s ns σ σ' n m hb hnd hnames
  refine ⟨d, hd, ?_⟩
  have hlen : d.length = (pyKeys d).length := (List.length_map _ _).symm
  rw [hlen, hkeys]
  have := rawKeysSpec_length s ns
  simp only [fullKeysSpec, List.length_append, List.length_cons, List.length_nil]
  omega

/-- A junk accessor used only as a `getD` fallback in witnesses. -/
def pfJunk : ProxyFieldM := ⟨"", "", .tInt, none, default_encoder 0⟩

/-- The value proxy built for `sBigger` (fallback never taken). -/
def vBigger : PEntry ProxyFieldM × List (String × PEntry ProxyFieldM) :=
  (state_proxy (default_encoder 0) sBigger "" []).2.toOption.getD (.leaf pfJunk, [])

theorem namesOK_sMyData : NamesOK sMyData := ⟨by decide, trivial⟩

theorem namesOK_sBigger : NamesOK sBigger := ⟨by decide, ⟨⟨by decide, trivial⟩, trivial⟩⟩

/-- Witness for C5: the nested test schema has 3 leaves and 2 sub-records
including the root, and its flat index has 5 entries. -/
theorem C5_flat_index_size_witness :
    ∃ d, get_field_proxy_dict vBigger.1 = .ok d ∧
      d.length = countLeaves sBigger + countSubs sBigger :=
  C5_flat_index_size (default_encoder 0) sBigger "" []
    (state_proxy (default_encoder 0) sBigger "" []).1 vBigger.1 vBigger.2
    rfl (by decide) namesOK_sBigger

/-! ## The reactive key set (`get_reactive_state_id_keys`) -/

/-- `get_reactive_state_id_keys`: binding tokens are key strings or proxy
nodes.  For a proxy token the keys of its field dict are appended; for a
string token the string itself.  (A bare leaf accessor object is never a
token — attribute access on a proxy yields the key string, not the
accessor — so that branch contributes nothing here.) -/
def get_reactive_state_id_keys {α : Type} : List (String ⊕ PEntry α) → List String
  | [] => []
  | .inl s :: rest => s :: get_reactive_state_id_keys rest
  | .inr p :: rest =>
      (if is_proxy_class p then
        match get_field_proxy_dict p with
        | .ok d => pyKeys d
        | .error _ => []
      else []) ++ get_reactive_state_id_keys rest

mutual
/-- The claim's "descendant leaf keys recursively" of a record. -/
def leafKeysOnly : Schema → String → List String
  | .mk cname fs, ns => leafKeysOnlyF fs (if ns = "" then cname else ns ++ "__" ++ cname)
def leafKeysOnlyF : SFields → String → List String
  | .nil, _ => []
  | .cons (.leaf l) fs, pfx => (pfx ++ "__" ++ l.name) :: leafKeysOnlyF fs pfx
  | .cons (.sub g s) fs, pfx => leafKeysOnly s (pfx ++ "__" ++ g) ++ leafKeysOnlyF fs pfx
end

/-- Expected contribution of a single token to the reactive key set:
for a sub-record token, all entries of its flat field index in order
(descendant leaf keys and descendant synthetic keys, each sub-record's
synthetic key after its own descendants) followed by its own synthetic
key; for a string token, just that key. -/
def reactiveKeysSpec {α : Type} : (String ⊕ PEntry α) → List String
  | .inl k => [k]
  | .inr (.node s sid _ _) => fieldsKeysSpec s.fields sid ++ [sid]
  | .inr (.leaf _) => []

def concatKeysSpec {α : Type} : List (String ⊕ PEntry α) → List String
  | [] => []
  | t :: ts => reactiveKeysSpec t ++ concatKeysSpec ts

/-- C6 (counterexample): binding to the root token of the nested test
schema watches the inner record's synthetic key
`MyBiggerData__my_other_data__MyData` as well, which the claim's
"descendant leaf keys plus own synthetic key" enumeration omits. -/
theorem C6_counterexample_nested_synth_keys :
    (state_names_proxy sBigger "").map (fun p => get_reactive_state_id_keys [Sum.inr p.1]) =
      .ok ["MyBiggerData__my_other_data__MyData__a", "MyBiggerData__my_other_data__MyData__b",
        "MyBiggerData__my_other_data__MyData", "MyBiggerData__c", "MyBiggerData"] ∧
    leafKeysOnly sBigger "" ++ [synthKey sBigger ""] =
      ["MyBiggerData__my_other_data__MyData__a", "MyBiggerData__my_other_data__MyData__b",
        "MyBiggerData__c", "MyBiggerData"] ∧
    (["MyBiggerData__my_other_data__MyData__a", "MyBiggerData__my_other_data__MyData__b",
        "MyBiggerData__my_other_data__MyData", "MyBiggerData__c", "MyBiggerData"] ≠
      ["MyBiggerData__my_other_data__MyData__a", "MyBiggerData__my_other_data__MyData__b",
        "MyBiggerData__c", "MyBiggerData"]) :=
  ⟨rfl, rfl, by decide⟩

/-- C6 (amended): for tokens that are strings or sub-record proxies built
with pairwise-distinct derived keys, the reactive key set is the
concatenation, in input order, of each token's contribution: for a
sub-record token all entries of its flat field index (descendant leaf
keys and descendant sub-record synthetic keys, depth-first, each
sub-record's synthetic key after its own descendants' keys) followed by
its own synthetic key, and for a string token exactly that key. -/
theorem C6_reactive_keys {α : Type} (h : Handler α) (toks : List (String ⊕ PEntry α))
    (hsub : ∀ s sid attrs raw, Sum.inr (PEntry.node s sid attrs raw) ∈ toks →
      ∃ ns σ σ', build_proxy_cls h s ns σ =
          (σ', .ok (.node s sid attrs raw, raw)) ∧
        (fullKeysSpec s ns).Nodup ∧ NamesOK s) :
    get_reactive_state_id_keys toks = concatKeysSpec toks := by
  induction toks with
  | nil => rfl
  | cons t ts ih =>
      have hrest : get_reactive_state_id_keys ts = concatKeysSpec ts :=
        ih (fun s sid attrs raw hmem => hsub s sid attrs raw (List.mem_cons_of_mem _ hmem))
      cases t with
      | inl k => simp [get_reactive_state_id_keys, concatKeysSpec, reactiveKeysSpec, hrest]
      | inr p =>
          cases p with
          | leaf a =>
              simp [get_reactive_state_id_keys, concatKeysSpec, reactiveKeysSpec, hrest,
                is_proxy_class]
          | node s sid attrs raw =>
              obtain ⟨ns, σ, σ', hb, hnd, hnames⟩ :=
                hsub s sid attrs raw (List.mem_cons_self _ _)
              obtain ⟨d, hd, hdm, hkeys⟩ := fieldDict_keys h s ns σ σ' _ raw hb hnd hnames
              obtain ⟨attrs0, hn, _, _, _⟩ := build_char h s ns σ σ' _ raw hb hnd hnames
              have hsid : sid = synthKey s ns := by
                injection hn with h1 h2 h3 h4
              simp only [get_reactive_state_id_keys, is_proxy_class, if_pos, hd, hrest]
              rw [hkeys]
              simp only [concatKeysSpec, reactiveKeysSpec]
              rw [hsid, fullKeysSpec, rawKeysSpec_eq_fields]

/-- The name proxy of `sMyData` under the empty namespace, spelled out. -/
def nmMyData : PEntry String :=
  .node sMyData "MyData"
    [("a", .leaf "MyData__a"), ("b", .leaf "MyData__b")]
    [("MyData__a", .leaf "MyData__a"), ("MyData__b", .leaf "MyData__b")]

/-- Witness for C6: one string token and one sub-record token. -/
theorem C6_reactive_keys_witness :
    get_reactive_state_id_keys [Sum.inl "k", Sum.inr nmMyData] =
      concatKeysSpec [Sum.inl "k", Sum.inr nmMyData] :=
  C6_reactive_keys nameHandler [Sum.inl "k", Sum.inr nmMyData] (by
    intro s sid attrs raw hmem
    simp only [nmMyData, List.mem_cons, List.mem_singleton, List.not_mem_nil, or_false] at hmem
    rcases hmem with hm | hm
    · cases hm
    · cases hm
      exact ⟨"", [], [],
        rfl, by decide, namesOK_sMyData⟩)

/-! ## Attribute-structure characterization (no key-distinctness needed) -/

/-- Structural description of the class-namespace extension built by the
field loop: one entry per field in declaration order, holding the
handler-produced accessor for a leaf and the recursively built node for a
nested record. -/
def AttrsOK {α : Type} (h : Handler α) : SFields → String → List (String × PEntry α) → Prop
  | .nil, _, aext => aext = []
  | .cons (.leaf l) fs, pfx, aext =>
      ∃ a aextR, aext = (l.name, PEntry.leaf a) :: aextR ∧
        (∃ σ σ', h σ (pfx ++ "__" ++ l.name) l = (σ', .ok a)) ∧ AttrsOK h fs pfx aextR
  | .cons (.sub g s) fs, pfx, aext =>
      ∃ cattrs craw aextR σ σ',
        build_proxy_cls h s (pfx ++ "__" ++ g) σ =
          (σ', .ok (PEntry.node s (synthKey s (pfx ++ "__" ++ g)) cattrs craw, craw)) ∧
        aext = (g, PEntry.node s (synthKey s (pfx ++ "__" ++ g)) cattrs craw) :: aextR ∧
        AttrsOK h fs pfx aextR

mutual
theorem build_attrs_char {α : Type} (h : Handler α) : ∀ (s : Schema) (ns : String)
    (σ σ' : Store) (n : PEntry α) (m : List (String × PEntry α)),
    build_proxy_cls h s ns σ = (σ', .ok (n, m)) → NamesOK s →
    ∃ attrs, n = .node s (synthKey s ns) attrs m ∧ pyKeys attrs = fieldNames s.fields ∧
      AttrsOK h s.fields (synthKey s ns) attrs
  | .mk cname fs, ns, σ, σ', n, m, hb, hnames => by
      simp only [build_proxy_cls] at hb
      rcases hbf : build_fields h fs (if ns = "" then cname else ns ++ "__" ++ cname) σ [] []
        with ⟨σ₁, res⟩
      rw [hbf] at hb
      cases res with
      | error e => simp at hb
      | ok pr =>
          obtain ⟨attrs0, raw0⟩ := pr
          simp only [Prod.mk.injEq, Except.ok.injEq] at hb
          obtain ⟨hσ, ⟨hn, hm⟩⟩ := hb
          simp only [NamesOK] at hnames
          obtain ⟨aext, hae, hka, hsegs⟩ :=
            build_fields_attrs_char h fs (if ns = "" then cname else ns ++ "__" ++ cname)
              σ σ₁ [] [] attrs0 raw0 hbf hnames.1 hnames.2
              (by intro f _ hfmem; simp [pyKeys] at hfmem)
          subst hm
          refine ⟨attrs0, ?_, ?_, ?_⟩
          · rw [← hn]
            simp [synthKey, Schema.name]
          · rw [hae]
            simpa [Schema.fields] using hka
          · have hsk : synthKey (Schema.mk cname fs) ns =
                (if ns = "" then cname else ns ++ "__" ++ cname) := by
              simp [synthKey, Schema.name]
            rw [hsk]
            simpa [Schema.fields, hae] using hsegs
theorem build_fields_attrs_char {α : Type} (h : Handler α) : ∀ (fs : SFields) (pfx : String)
    (σ σ' : Store) (attrs raw a' r' : List (String × PEntry α)),
    build_fields h fs pfx σ attrs raw = (σ', .ok (a', r')) →
    (fieldNames fs).Nodup → NamesOKF fs →
    (∀ f ∈ fieldNames fs, f ∉ pyKeys attrs) →
    ∃ aext, a' = attrs ++ aext ∧ pyKeys aext = fieldNames fs ∧ AttrsOK h fs pfx aext
  | .nil, pfx, σ, σ', attrs, raw, a', r', hb, _, _, _ => by
      simp only [build_fields, Prod.mk.injEq, Except.ok.injEq] at hb
      exact ⟨[], by simp [hb.2.1], by simp [fieldNames], by simp [AttrsOK]⟩
  | .cons (.leaf l) fs, pfx, σ, σ', attrs, raw, a', r', hb, hfn, hnok, hfdisj => by
      simp only [build_fields] at hb
      rcases hh : h σ (pfx ++ "__" ++ l.name) l with ⟨σ₁, res⟩
      rw [hh] at hb
      cases res with
      | error e => simp at hb
      | ok a =>
          simp only [getStateId] at hb
          have hnattrs : l.name ∉ pyKeys attrs :=
            hfdisj _ (by simp [fieldNames, SField.fname])
          rw [pyIns_eq_append attrs _ _ hnattrs] at hb
          simp only [fieldNames, SField.fname, List.nodup_cons] at hfn
          simp only [NamesOKF] at hnok
          obtain ⟨aext, hae, hka, hsegs⟩ :=
            build_fields_attrs_char h fs pfx σ₁ σ' _ _ a' r' hb hfn.2 hnok
              (by
                intro f hf hmem
                simp only [pyKeys_append, pyKeys_cons, pyKeys_nil, List.mem_append,
                  List.mem_singleton] at hmem
                rcases hmem with hm | hm
                · exact hfdisj f (by simp [fieldNames, SField.fname, hf]) hm
                · exact hfn.1 (hm ▸ hf))
          refine ⟨(l.name, .leaf a) :: aext, ?_, ?_, ?_⟩
          · rw [hae]
            simp
          · simp [hka, fieldNames, SField.fname]
          · exact ⟨a, aext, rfl, ⟨σ, σ₁, hh⟩, hsegs⟩
  | .cons (.sub g s) fs, pfx, σ, σ', attrs, raw, a', r', hb, hfn, hnok, hfdisj => by
      simp only [build_fields] at hb
      rcases hbc : build_proxy_cls h s (pfx ++ "__" ++ g) σ with ⟨σ₁, res⟩
      rw [hbc] at hb
      cases res with
      | error e => simp at hb
      | ok pr =>
          obtain ⟨child, childRaw⟩ := pr
          simp only [fieldNames, SField.fname, List.nodup_cons] at hfn
          simp only [NamesOKF] at hnok
          obtain ⟨cattrs, hchild, hcattrs, hcsegs⟩ :=
            build_attrs_char h s (pfx ++ "__" ++ g) σ σ₁ child childRaw hbc hnok.1
          subst hchild
          simp only [getStateId] at hb
          have hgattrs : g ∉ pyKeys attrs := hfdisj _ (by simp [fieldNames, SField.fname])
          rw [pyIns_eq_append attrs _ _ hgattrs] at hb
          obtain ⟨aext, hae, hka, hsegs⟩ :=
            build_fields_attrs_char h fs pfx σ₁ σ' _ _ a' r' hb hfn.2 hnok.2
              (by
                intro f hf hmem
                simp only [pyKeys_append, pyKeys_cons, pyKeys_nil, List.mem_append,
                  List.mem_singleton] at hmem
                rcases hmem with hm | hm
                · exact hfdisj f (by simp [fieldNames, SField.fname, hf]) hm
                · exact hfn.1 (hm ▸ hf))
          refine ⟨(g, PEntry.node s (synthKey s (pfx ++ "__" ++ g)) cattrs childRaw) :: aext,
            ?_, ?_, ?_⟩
          · rw [hae]
            simp
          · simp [hka, fieldNames, SField.fname]
          · exact ⟨cattrs, childRaw, aext, σ, σ₁, hbc, rfl, hsegs⟩
end

/-- The first field declared under a given name. -/
def findField : SFields → String → Option SField
  | .nil, _ => none
  | .cons f fs, g => if f.fname = g then some f else findField fs g

theorem namesOKF_findField : ∀ (fs : SFields) (g g' : String) (s : Schema),
    NamesOKF fs → findField fs g = some (.sub g' s) → NamesOK s
  | .nil, g, g', s, _, hf => by simp [findField] at hf
  | .cons f fs, g, g', s, hnok, hf => by
      simp only [findField] at hf
      by_cases hg : f.fname = g
      · rw [if_pos hg] at hf
        cases f with
        | leaf l => cases hf
        | sub n s2 =>
            have h2 : NamesOK s2 ∧ NamesOKF fs := by simpa [NamesOKF] using hnok
            injection hf with hf
            cases hf
            exact h2.1
      · rw [if_neg hg] at hf
        cases f with
        | leaf l => exact namesOKF_findField fs g g' s (by simpa [NamesOKF] using hnok) hf
        | sub n s' =>
            have h2 : NamesOK s' ∧ NamesOKF fs := by simpa [NamesOKF] using hnok
            exact namesOKF_findField fs g g' s h2.2 hf

/-- Resolve an attribute through `AttrsOK`: the entry is the handler's
leaf accessor or the child node of the first field with that name. -/
theorem attrsOK_lookup {α : Type} (h : Handler α) : ∀ (fs : SFields) (pfx : String)
    (aext : List (String × PEntry α)) (g : String) (c : PEntry α),
    AttrsOK h fs pfx aext → pyGet aext g = some c →
    (∃ l a σ σ', findField fs g = some (.leaf l) ∧ c = .leaf a ∧ l.name = g ∧
      h σ (pfx ++ "__" ++ l.name) l = (σ', .ok a)) ∨
    (∃ s cattrs craw σ σ', findField fs g = some (.sub g s) ∧
      c = .node s (synthKey s (pfx ++ "__" ++ g)) cattrs craw ∧
      build_proxy_cls h s (pfx ++ "__" ++ g) σ = (σ', .ok (c, craw)))
  | .nil, pfx, aext, g, c, hsegs, hget => by
      simp only [AttrsOK] at hsegs
      subst hsegs
      simp [pyGet] at hget
  | .cons (.leaf l) fs, pfx, aext, g, c, hsegs, hget => by
      obtain ⟨a, aextR, hae, hh, hrest⟩ := hsegs
      subst hae
      simp only [pyGet] at hget
      by_cases hg : l.name = g
      · rw [if_pos hg] at hget
        injection hget with hget
        left
        obtain ⟨σ, σ', hh⟩ := hh
        exact ⟨l, a, σ, σ', by simp [findField, SField.fname, hg], hget.symm, hg, hh⟩
      · rw [if_neg hg] at hget
        have := attrsOK_lookup h fs pfx aextR g c hrest hget
        simpa [findField, SField.fname, hg] using this
  | .cons (.sub g' s) fs, pfx, aext, g, c, hsegs, hget => by
      obtain ⟨cattrs, craw, aextR, σ, σ', hbc, hae, hrest⟩ := hsegs
      subst hae
      simp only [pyGet] at hget
      by_cases hg : g' = g
      · rw [if_pos hg] at hget
        injection hget with hget
        right
        subst hg
        exact ⟨s, cattrs, craw, σ, σ', by simp [findField, SField.fname],
          hget.symm, hget ▸ hbc⟩
      · rw [if_neg hg] at hget
        have := attrsOK_lookup h fs pfx aextR g c hrest hget
        simpa [findField, SField.fname, hg] using this

/-! ## C1: the derived-key formula -/

/-- The claim's derived-key formula, with the base case as the code
computes it: the leading separator is dropped when the prefix is empty. -/
def claimDerivedKey (ns tyName fieldName : String) : String :=
  (if ns = "" then tyName else ns ++ "__" ++ tyName) ++ "__" ++ fieldName

/-- The claim's recursive key specification: a leaf's key is the formula
applied to the current prefix, and a nested record field's derived key
becomes the prefix for its own children. -/
def specLeafKey : Schema → String → List String → String → Option String
  | s, ns, [], f =>
      match findField s.fields f with
      | some (.leaf _) => some (claimDerivedKey ns s.name f)
      | _ => none
  | s, ns, g :: p, f =>
      match findField s.fields g with
      | some (.sub _ s') => specLeafKey s' (claimDerivedKey ns s.name g) p f
      | _ => none

/-- The key exposed by a proxy tree at a leaf reached by attribute
navigation. -/
def leafKeyAt {α : Type} (keyOf : α → String) (n : PEntry α) (path : List String)
    (f : String) : Option String :=
  match nodeAt n path with
  | some (.node _ _ attrs _) =>
      match pyGet attrs f with
      | some (.leaf a) => some (keyOf a)
      | _ => none
  | _ => none

theorem claimDerivedKey_synth (s : Schema) (ns f : String) :
    claimDerivedKey ns s.name f = synthKey s ns ++ "__" ++ f := by
  simp [claimDerivedKey, synthKey]

/-- C1 (counterexample): with the default empty namespace the derived key
of `MyData.a` is `MyData__a`, not `"" + "__" + "MyData" + "__" + "a"` =
`__MyData__a`: the formula's leading separator is dropped. -/
theorem C1_counterexample_empty_prefix :
    (state_names_proxy sMyData "").map (fun p => leafKeyAt id p.1 [] "a") =
      .ok (some "MyData__a") ∧
    "" ++ "__" ++ "MyData" ++ "__" ++ "a" = "__MyData__a" ∧
    ("MyData__a" : String) ≠ "__MyData__a" :=
  ⟨rfl, rfl, by decide⟩

/-- C1 (amended): every leaf key of the name proxy satisfies the recursive
formula `prefix + "__" + TypeName + "__" + fieldName`, except that the
leading separator is dropped when the prefix is empty (the default); a
nested record field's derived key becomes the prefix for its children. -/
theorem C1_derived_key_formula (s : Schema) (ns : String) (σ σ' : Store)
    (n : PEntry String) (m : List (String × PEntry String))
    (hb : build_proxy_cls nameHandler s ns σ = (σ', .ok (n, m))) (hnames : NamesOK s) :
    ∀ (path : List String) (f k : String),
      leafKeyAt id n path f = some k → specLeafKey s ns path f = some k := by
  intro path
  induction path generalizing s ns σ σ' n m with
  | nil =>
      intro f k hk
      obtain ⟨attrs, hn, hka, hsegs⟩ := build_attrs_char nameHandler s ns σ σ' n m hb hnames
      subst hn
      simp only [leafKeyAt, nodeAt] at hk
      rcases hget : pyGet attrs f with _ | c
      · rw [hget] at hk
        cases hk
      · rw [hget] at hk
        cases c with
        | node s2 sid2 a2 r2 => cases hk
        | leaf a =>
            injection hk with hk
            rcases attrsOK_lookup nameHandler s.fields (synthKey s ns) attrs f _ hsegs hget with
              ⟨l, a', σ₁, σ₂, hff, hca, hlname, hh⟩ | ⟨s2, cattrs, craw, σ₁, σ₂, hff, hc, _⟩
            · injection hca with hca
              simp only [nameHandler, Prod.mk.injEq, Except.ok.injEq] at hh
              simp only [specLeafKey, hff, claimDerivedKey_synth]
              rw [← hk, hca, ← hlname, hh.2]
              rfl
            · cases hc
  | cons g p ih =>
      intro f k hk
      obtain ⟨attrs, hn, hka, hsegs⟩ := build_attrs_char nameHandler s ns σ σ' n m hb hnames
      subst hn
      simp only [leafKeyAt, nodeAt] at hk
      rcases hget : pyGet attrs g with _ | c
      · rw [hget] at hk
        cases hk
      · rw [hget] at hk
        rcases attrsOK_lookup nameHandler s.fields (synthKey s ns) attrs g c hsegs hget with
          ⟨l, a', σ₁, σ₂, hff, hca, hlname, hh⟩ | ⟨s2, cattrs, craw, σ₁, σ₂, hff, hc, hbc⟩
        · subst hca
          cases p <;> simp [nodeAt] at hk
        · subst hc
          have hnames2 : NamesOK s2 := by
            cases s with
            | mk cname fs =>
                simp only [NamesOK] at hnames
                exact namesOKF_findField fs g g s2 hnames.2 (by simpa [Schema.fields] using hff)
          have := ih s2 (synthKey s ns ++ "__" ++ g) σ₁ σ₂ _ craw hbc hnames2 f k
            (by simpa [leafKeyAt] using hk)
          simp only [specLeafKey, hff, claimDerivedKey_synth]
          exact this

/-! ## C4: structural mirroring of value proxy and name proxy -/

mutual
/-- Structural correspondence between a value-proxy tree and a name-proxy
tree: at every leaf the accessor's state id equals the name-proxy string,
and corresponding sub-record nodes carry the same dataclass type and the
same synthetic key. -/
inductive Mirror : PEntry ProxyFieldM → PEntry String → Prop where
  | leaf : ∀ (a : ProxyFieldM) (k : String), a.state_id = k → Mirror (.leaf a) (.leaf k)
  | node : ∀ (s : Schema) (sid : String) (attrs raw : List (String × PEntry ProxyFieldM))
      (attrs' raw' : List (String × PEntry String)),
      MirrorD attrs attrs' → MirrorD raw raw' →
      Mirror (.node s sid attrs raw) (.node s sid attrs' raw')
/-- Pointwise mirroring of dicts: same keys in the same order, mirrored
entries. -/
inductive MirrorD : List (String × PEntry ProxyFieldM) → List (String × PEntry String) → Prop where
  | nil : MirrorD [] []
  | cons : ∀ (k : String) (e : PEntry ProxyFieldM) (e' : PEntry String)
      (d : List (String × PEntry ProxyFieldM)) (d' : List (String × PEntry String)),
      Mirror e e' → MirrorD d d' → MirrorD ((k, e) :: d) ((k, e') :: d')
end

theorem mirrorD_pyIns : ∀ (d : List (String × PEntry ProxyFieldM))
    (d' : List (String × PEntry String)), MirrorD d d' →
    ∀ (k : String) (e : PEntry ProxyFieldM) (e' : PEntry String), Mirror e e' →
    MirrorD (pyIns d k e) (pyIns d' k e') := by
  intro d
  induction d with
  | nil =>
      intro d' hd k e e' he
      cases hd
      exact MirrorD.cons k e e' [] [] he MirrorD.nil
  | cons p rest ih =>
      intro d' hd k e e' he
      obtain ⟨k0, e0⟩ := p
      cases hd with
      | cons _ _ e0' _ d2 h0 hrest =>
          by_cases hkk : k0 = k
          · subst hkk
            simp only [pyIns, if_pos rfl]
            exact MirrorD.cons _ _ _ _ _ he hrest
          · simp only [pyIns, if_neg hkk]
            exact MirrorD.cons _ _ _ _ _ h0 (ih _ hrest k e e' he)

theorem mirrorD_pyUpd : ∀ (m : List (String × PEntry ProxyFieldM))
    (m' : List (String × PEntry String)), MirrorD m m' →
    ∀ (d : List (String × PEntry ProxyFieldM)) (d' : List (String × PEntry String)),
    MirrorD d d' → MirrorD (pyUpd d m) (pyUpd d' m') := by
  intro m
  induction m with
  | nil =>
      intro m' hm d d' hd
      cases hm
      exact hd
  | cons p rest ih =>
      intro m' hm d d' hd
      obtain ⟨k0, e0⟩ := p
      cases hm with
      | cons _ _ e0' _ m2 h0 hrest =>
          have hstep : pyUpd d ((k0, e0) :: rest) = pyUpd (pyIns d k0 e0) rest := rfl
          have hstep' : pyUpd d' ((k0, e0') :: m2) = pyUpd (pyIns d' k0 e0') m2 := rfl
          rw [hstep, hstep']
          exact ih m2 hrest _ _ (mirrorD_pyIns d d' hd k0 e0 e0' h0)

/-- A built instance is always a node for its own schema under the
computed synthetic key, carrying the merge dict as its raw dict. -/
theorem build_shape {α : Type} (h : Handler α) (s : Schema) (ns : String) (σ σ' : Store)
    (n : PEntry α) (m : List (String × PEntry α))
    (hb : build_proxy_cls h s ns σ = (σ', .ok (n, m))) :
    ∃ attrs, n = .node s (synthKey s ns) attrs m := by
  cases s with
  | mk cname fs =>
      simp only [build_proxy_cls] at hb
      rcases hbf : build_fields h fs (if ns = "" then cname else ns ++ "__" ++ cname) σ [] []
        with ⟨σ₁, res⟩
      rw [hbf] at hb
      cases res with
      | error e => simp at hb
      | ok pr =>
          obtain ⟨attrs0, raw0⟩ := pr
          simp only [Prod.mk.injEq, Except.ok.injEq] at hb
          refine ⟨attrs0, ?_⟩
          rw [← hb.2.1, ← hb.2.2]
          simp [synthKey, Schema.name]

/-- The accessor built by the `state_proxy` handler is fully determined by
its arguments. -/
theorem proxyHandler_ok (enc : Codec) (σ : Store) (sid : String) (l : SLeaf)
    (σ' : Store) (a : ProxyFieldM) (h : proxyHandler enc σ sid l = (σ', .ok a)) :
    a = ⟨sid, l.name, l.ty, l.default, enc⟩ := by
  simp only [proxyHandler] at h
  split at h
  · simp only [Prod.mk.injEq, Except.ok.injEq] at h
    exact h.2.symm
  · split at h
    · simp at h
    · simp only [Prod.mk.injEq, Except.ok.injEq] at h
      exact h.2.symm

mutual
theorem mirror_build (enc : Codec) : ∀ (s : Schema) (ns : String) (σ σ' σ₂ : Store)
    (n : PEntry ProxyFieldM) (m : List (String × PEntry ProxyFieldM)),
    build_proxy_cls (proxyHandler enc) s ns σ = (σ', .ok (n, m)) →
    ∃ n' m', build_proxy_cls nameHandler s ns σ₂ = (σ₂, .ok (n', m')) ∧ Mirror n n' ∧
      MirrorD m m'
  | .mk cname fs, ns, σ, σ', σ₂, n, m, hb => by
      simp only [build_proxy_cls] at hb ⊢
      rcases hbf : build_fields (proxyHandler enc) fs
          (if ns = "" then cname else ns ++ "__" ++ cname) σ [] [] with ⟨σ₁, res⟩
      rw [hbf] at hb
      cases res with
      | error e => simp at hb
      | ok pr =>
          obtain ⟨attrs0, raw0⟩ := pr
          simp only [Prod.mk.injEq, Except.ok.injEq] at hb
          obtain ⟨hσ, ⟨hn, hm⟩⟩ := hb
          obtain ⟨aN, rN, hbn, hfa, hfr⟩ :=
            mirror_fields enc fs (if ns = "" then cname else ns ++ "__" ++ cname)
              σ σ₁ σ₂ [] [] attrs0 raw0 [] [] hbf MirrorD.nil MirrorD.nil
          refine ⟨.node (.mk cname fs) (if ns = "" then cname else ns ++ "__" ++ cname) aN rN,
            rN, ?_, ?_, ?_⟩
          · simp only [hbn]
          · rw [← hn]
            exact Mirror.node _ _ _ _ _ _ hfa hfr
          · rw [← hm]
            exact hfr
theorem mirror_fields (enc : Codec) : ∀ (fs : SFields) (pfx : String) (σ σ' σ₂ : Store)
    (attrs raw a' r' : List (String × PEntry ProxyFieldM))
    (attrsN rawN : List (String × PEntry String)),
    build_fields (proxyHandler enc) fs pfx σ attrs raw = (σ', .ok (a', r')) →
    MirrorD attrs attrsN → MirrorD raw rawN →
    ∃ aN rN, build_fields nameHandler fs pfx σ₂ attrsN rawN = (σ₂, .ok (aN, rN)) ∧
      MirrorD a' aN ∧ MirrorD r' rN
  | .nil, pfx, σ, σ', σ₂, attrs, raw, a', r', attrsN, rawN, hb, hfa, hfr => by
      simp only [build_fields, Prod.mk.injEq, Except.ok.injEq] at hb
      obtain ⟨hσ, ⟨ha, hr⟩⟩ := hb
      exact ⟨attrsN, rawN, rfl, ha ▸ hfa, hr ▸ hfr⟩
  | .cons (.leaf l) fs, pfx, σ, σ', σ₂, attrs, raw, a', r', attrsN, rawN, hb, hfa, hfr => by
      simp only [build_fields] at hb
      rcases hh : proxyHandler enc σ (pfx ++ "__" ++ l.name) l with ⟨σ₁, res⟩
      rw [hh] at hb
      cases res with
      | error e => simp at hb
      | ok a =>
          simp only [getStateId] at hb
          have ha := proxyHandler_ok enc σ (pfx ++ "__" ++ l.name) l σ₁ a hh
          have hmir : Mirror (.leaf a) (.leaf (pfx ++ "__" ++ l.name)) :=
            Mirror.leaf a _ (by rw [ha])
          obtain ⟨aN, rN, hbn, hfa', hfr'⟩ :=
            mirror_fields enc fs pfx σ₁ σ' σ₂ _ _ a' r' _ _ hb
              (mirrorD_pyIns attrs attrsN hfa l.name _ _ hmir)
              (mirrorD_pyIns raw rawN hfr (pfx ++ "__" ++ l.name) _ _ hmir)
          refine ⟨aN, rN, ?_, hfa', hfr'⟩
          simp only [build_fields, nameHandler, getStateId]
          exact hbn
  | .cons (.sub g s) fs, pfx, σ, σ', σ₂, attrs, raw, a', r', attrsN, rawN, hb, hfa, hfr => by
      simp only [build_fields] at hb
      rcases hbc : build_proxy_cls (proxyHandler enc) s (pfx ++ "__" ++ g) σ with ⟨σ₁, res⟩
      rw [hbc] at hb
      cases res with
      | error e => simp at hb
      | ok pr =>
          obtain ⟨child, childRaw⟩ := pr
          obtain ⟨cattrs, hcshape⟩ :=
            build_shape (proxyHandler enc) s (pfx ++ "__" ++ g) σ σ₁ child childRaw hbc
          subst hcshape
          obtain ⟨child', childRaw', hbn, hmir, hfc⟩ :=
            mirror_build enc s (pfx ++ "__" ++ g) σ σ₁ σ₂ _ childRaw hbc
          cases hmir with
          | node s0 sid0 _ _ cattrs' craw' hfa0 hfr0 =>
              simp only [getStateId] at hb
              obtain ⟨aN, rN, hbn2, hfa', hfr'⟩ :=
                mirror_fields enc fs pfx σ₁ σ' σ₂ _ _ a' r' _ _ hb
                  (mirrorD_pyIns attrs attrsN hfa g _ _
                    (Mirror.node _ _ cattrs childRaw cattrs' craw' hfa0 hfr0))
                  (mirrorD_pyIns _ _ (mirrorD_pyUpd childRaw childRaw' hfc raw rawN hfr)
                    (synthKey s (pfx ++ "__" ++ g)) _ _
                    (Mirror.node _ _ cattrs childRaw cattrs' craw' hfa0 hfr0))
              refine ⟨aN, rN, ?_, hfa', hfr'⟩
              simp only [build_fields, hbn, getStateId]
              exact hbn2
end

/-- C4: value proxy (`state_proxy`) and name proxy (`state_names_proxy`)
built from the same schema and namespace are structurally mirrored: at
every corresponding leaf the value accessor's state id equals the name
proxy's string, and corresponding sub-record nodes carry the same
synthetic key. -/
theorem C4_structural_mirror (enc : Codec) (s : Schema) (ns : String) (σ σ' : Store)
    (n : PEntry ProxyFieldM) (m : List (String × PEntry ProxyFieldM))
    (hb : state_proxy enc s ns σ = (σ', .ok (n, m))) :
    ∃ n' m', state_names_proxy s ns = .ok (n', m') ∧ Mirror n n' ∧ MirrorD m m' := by
  obtain ⟨n', m', hbn, hmir, hf⟩ := mirror_build enc s ns σ σ' [] n m hb
  exact ⟨n', m', by simp [state_names_proxy, hbn], hmir, hf⟩

/-- Witness for C4: the mirrored pair for the nested test schema. -/
theorem C4_structural_mirror_witness :
    ∃ n' m', state_names_proxy sBigger "" = .ok (n', m') ∧ Mirror vBigger.1 n' ∧
      MirrorD vBigger.2 m' :=
  C4_structural_mirror (default_encoder 0) sBigger "" []
    (state_proxy (default_encoder 0) sBigger "" []).1 vBigger.1 vBigger.2 rfl

/-- The name proxy of `sBigger` (fallback never taken). -/
def nmBigger : PEntry String × List (String × PEntry String) :=
  (state_names_proxy sBigger "").toOption.getD (.leaf "", [])

/-- Witness for C1: the nested leaf `my_other_data.a` of the test schema. -/
theorem C1_derived_key_formula_witness :
    leafKeyAt id nmBigger.1 ["my_other_data"] "a" =
        some "MyBiggerData__my_other_data__MyData__a" ∧
      specLeafKey sBigger "" ["my_other_data"] "a" =
        some "MyBiggerData__my_other_data__MyData__a" :=
  ⟨rfl, C1_derived_key_formula sBigger "" [] [] nmBigger.1 nmBigger.2 rfl namesOK_sBigger
    ["my_other_data"] "a" "MyBiggerData__my_other_data__MyData__a" rfl⟩

/-! ## C8: defaults are written with set-if-absent only -/

theorem pyGet_none_not_mem {β : Type} (d : List (String × β)) (k : String)
    (h : pyGet d k = none) : k ∉ pyKeys d := by
  induction d with
  | nil => simp [pyKeys]
  | cons kv r ih =>
      obtain ⟨k', v'⟩ := kv
      simp only [pyGet] at h
      by_cases hk : k' = k
      · rw [if_pos hk] at h
        cases h
      · rw [if_neg hk] at h
        simp only [pyKeys_cons, List.mem_cons]
        push_neg
        exact ⟨fun he => hk he.symm, ih h⟩

/-- `setdefault` never changes the value of a key that is present. -/
theorem store_get_setdefault (σ : Store) (sid : String) (w : PVal) (k : String) (v : PVal)
    (hv : Store.get σ k = some v) : Store.get (Store.setdefault σ sid w) k = some v := by
  unfold Store.setdefault
  rcases hg : pyGet σ sid with _ | u
  · have hnm : sid ∉ pyKeys σ := pyGet_none_not_mem σ sid hg
    unfold Store.get at hv ⊢
    rw [pyIns_eq_append σ sid w hnm, pyGet_append_left σ _ k (by rw [hv]; rfl)]
    exact hv
  · exact hv

/-- A handler that only preserves present store values. -/
def PreservesStore {α : Type} (h : Handler α) : Prop :=
  ∀ σ sid l k v, Store.get σ k = some v → Store.get (h σ sid l).1 k = some v

theorem proxyHandler_preserves (enc : Codec) : PreservesStore (proxyHandler enc) := by
  intro σ sid l k v hv
  simp only [proxyHandler]
  split
  · exact hv
  · split
    · exact hv
    · exact store_get_setdefault σ sid _ k v hv

mutual
theorem build_preserves {α : Type} (h : Handler α) (hp : PreservesStore h) :
    ∀ (s : Schema) (ns : String) (σ : Store) (k : String) (v : PVal),
    Store.get σ k = some v → Store.get (build_proxy_cls h s ns σ).1 k = some v
  | .mk cname fs, ns, σ, k, v, hv => by
      simp only [build_proxy_cls]
      have := build_fields_preserves h hp fs
        (if ns = "" then cname else ns ++ "__" ++ cname) σ [] [] k v hv
      rcases hbf : build_fields h fs (if ns = "" then cname else ns ++ "__" ++ cname) σ [] []
        with ⟨σ₁, res⟩
      rw [hbf] at this
      cases res with
      | error e => exact this
      | ok pr => obtain ⟨attrs0, raw0⟩ := pr; exact this
theorem build_fields_preserves {α : Type} (h : Handler α) (hp : PreservesStore h) :
    ∀ (fs : SFields) (pfx : String) (σ : Store)
    (attrs raw : List (String × PEntry α)) (k : String) (v : PVal),
    Store.get σ k = some v → Store.get (build_fields h fs pfx σ attrs raw).1 k = some v
  | .nil, pfx, σ, attrs, raw, k, v, hv => hv
  | .cons (.leaf l) fs, pfx, σ, attrs, raw, k, v, hv => by
      simp only [build_fields]
      have h1 := hp σ (pfx ++ "__" ++ l.name) l k v hv
      rcases hh : h σ (pfx ++ "__" ++ l.name) l with ⟨σ₁, res⟩
      rw [hh] at h1
      cases res with
      | error e => exact h1
      | ok a => exact build_fields_preserves h hp fs pfx σ₁ _ _ k v h1
  | .cons (.sub g s) fs, pfx, σ, attrs, raw, k, v, hv => by
      simp only [build_fields]
      have h1 := build_preserves h hp s (pfx ++ "__" ++ g) σ k v hv
      rcases hbc : build_proxy_cls h s (pfx ++ "__" ++ g) σ with ⟨σ₁, res⟩
      rw [hbc] at h1
      cases res with
      | error e => exact h1
      | ok pr => obtain ⟨child, childRaw⟩ := pr; exact build_fields_preserves h hp fs pfx σ₁ _ _ k v h1
end

/-- C8: value-proxy construction writes encoded defaults only through
`setdefault` (set-if-absent), so any value already stored under any key —
in particular a non-default value written before a second construction
for the same schema and namespace — is left unchanged. -/
theorem C8_construction_preserves_stored (enc : Codec) (s : Schema) (ns : String)
    (σ : Store) (k : String) (v : PVal) (hv : Store.get σ k = some v) :
    Store.get (state_proxy enc s ns σ).1 k = some v :=
  build_preserves (proxyHandler enc) (proxyHandler_preserves enc) s ns σ k v hv

/-- Witness for C8: the store holds 42 under `MyData__a` (not the declared
default 1); rebuilding the proxy leaves it at 42. -/
theorem C8_construction_preserves_stored_witness :
    Store.get [("MyData__a", PVal.pint 42)] "MyData__a" = some (.pint 42) ∧
      Store.get (state_proxy (default_encoder 0) sMyData "" [("MyData__a", PVal.pint 42)]).1
        "MyData__a" = some (.pint 42) :=
  ⟨rfl, C8_construction_preserves_stored (default_encoder 0) sMyData "" _ _ _ rfl⟩

/-! ## C10: flat-index containment along the proxy tree -/

theorem pyGet_some_mem {β : Type} (d : List (String × β)) (k : String) (e : β)
    (h : pyGet d k = some e) : k ∈ pyKeys d := by
  induction d with
  | nil => cases h
  | cons kv r ih =>
      obtain ⟨k', v'⟩ := kv
      simp only [pyGet] at h
      by_cases hk : k' = k
      · simp [pyKeys_cons, hk]
      · rw [if_neg hk] at h
        exact List.mem_cons_of_mem _ (ih h)

theorem pyGet_append_cases {β : Type} (A B : List (String × β)) (k : String) (e : β)
    (h : pyGet (A ++ B) k = some e) :
    pyGet A k = some e ∨ (k ∉ pyKeys A ∧ pyGet B k = some e) := by
  induction A with
  | nil => exact Or.inr ⟨by simp [pyKeys], h⟩
  | cons kv r ih =>
      obtain ⟨k', v'⟩ := kv
      simp only [List.cons_append, pyGet] at h ⊢
      by_cases hk : k' = k
      · rw [if_pos hk] at h ⊢
        exact Or.inl h
      · rw [if_neg hk] at h ⊢
        rcases ih h with hc | ⟨hnm, hc⟩
        · exact Or.inl hc
        · refine Or.inr ⟨?_, hc⟩
          simp only [pyKeys_cons, List.mem_cons]
          push_neg
          exact ⟨fun he => hk he.symm, hnm⟩

/-- A derived key's full key list for a nested record found by field name
is a sublist of the enclosing record's field-loop keys. -/
theorem findField_sub_keys_sublist : ∀ (fs : SFields) (pfx g : String) (s2 : Schema),
    findField fs g = some (.sub g s2) →
    (fullKeysSpec s2 (pfx ++ "__" ++ g)).Sublist (fieldsKeysSpec fs pfx)
  | .nil, pfx, g, s2, hf => by simp [findField] at hf
  | .cons (.leaf l) fs, pfx, g, s2, hf => by
      simp only [findField, SField.fname] at hf
      by_cases hg : l.name = g
      · rw [if_pos hg] at hf
        cases hf
      · rw [if_neg hg] at hf
        exact List.Sublist.cons _ (findField_sub_keys_sublist fs pfx g s2 hf)
  | .cons (.sub g' s') fs, pfx, g, s2, hf => by
      simp only [findField, SField.fname] at hf
      by_cases hg : g' = g
      · rw [if_pos hg] at hf
        subst hg
        injection hf with hf
        injection hf with h1 h2
        subst h2
        have hsub := List.sublist_append_left
          (rawKeysSpec s' (pfx ++ "__" ++ g') ++ [synthKey s' (pfx ++ "__" ++ g')])
          (fieldsKeysSpec fs pfx)
        simp only [fullKeysSpec, fieldsKeysSpec]
        exact hsub
      · rw [if_neg hg] at hf
        have hsub := List.sublist_append_right
          (rawKeysSpec s' (pfx ++ "__" ++ g') ++ [synthKey s' (pfx ++ "__" ++ g')])
          (fieldsKeysSpec fs pfx)
        have htr := (findField_sub_keys_sublist fs pfx g s2 hf).trans hsub
        simpa [fieldsKeysSpec] using htr

/-- Resolve a sub-record attribute inside `SegsOK` and lift lookups in
its field dict into the enclosing merged dict. -/
theorem segsOK_sub_lookup {α : Type} (h : Handler α) : ∀ (fs : SFields) (pfx : String)
    (ext aext : List (String × PEntry α)) (g : String) (c : PEntry α),
    SegsOK h fs pfx ext aext → (pyKeys ext).Nodup → pyGet aext g = some c →
    is_proxy_class c = true →
    ∃ s2 cattrs craw σ σ',
      c = .node s2 (synthKey s2 (pfx ++ "__" ++ g)) cattrs craw ∧
      build_proxy_cls h s2 (pfx ++ "__" ++ g) σ = (σ', .ok (c, craw)) ∧
      findField fs g = some (.sub g s2) ∧
      ∀ k e, pyGet (pyIns craw (synthKey s2 (pfx ++ "__" ++ g)) c) k = some e →
        pyGet ext k = some e
  | .nil, pfx, ext, aext, g, c, hsegs, hnd, hget, hc => by
      obtain ⟨hext, haext⟩ := hsegs
      subst haext
      cases hget
  | .cons (.leaf l) fs, pfx, ext, aext, g, c, hsegs, hnd, hget, hc => by
      obtain ⟨a, extR, aextR, hext, haext, hh, hrest⟩ := hsegs
      subst hext
      subst haext
      simp only [pyGet] at hget
      by_cases hg : l.name = g
      · rw [if_pos hg] at hget
        injection hget with hget
        rw [← hget] at hc
        simp [is_proxy_class] at hc
      · rw [if_neg hg] at hget
        simp only [pyKeys_cons, List.nodup_cons] at hnd
        obtain ⟨s2, cattrs, craw, σ0, σ1, hceq, hbc, hff, hlift⟩ :=
          segsOK_sub_lookup h fs pfx extR aextR g c hrest hnd.2 hget hc
        refine ⟨s2, cattrs, craw, σ0, σ1, hceq, hbc,
          by simp [findField, SField.fname, hg, hff], ?_⟩
        intro k e hke
        have hk := hlift k e hke
        have hkm := pyGet_some_mem extR k e hk
        have hne : ¬ ((pfx ++ "__" ++ l.name) = k) := fun heq => hnd.1 (heq ▸ hkm)
        simp only [pyGet, if_neg hne]
        exact hk
  | .cons (.sub g' s') fs, pfx, ext, aext, g, c, hsegs, hnd, hget, hc => by
      obtain ⟨cattrs, craw, extR, aextR, σ0, σ1, hbc, hext, haext, hrest⟩ := hsegs
      subst hext
      subst haext
      simp only [pyGet] at hget
      have hndparts : (pyKeys craw).Nodup ∧
          (synthKey s' (pfx ++ "__" ++ g') ∉ pyKeys extR ∧ (pyKeys extR).Nodup) ∧
          List.Disjoint (pyKeys craw)
            (synthKey s' (pfx ++ "__" ++ g') :: pyKeys extR) := by
        rw [pyKeys_append, pyKeys_cons] at hnd
        rcases List.nodup_append.mp hnd with ⟨h1, h2, h3⟩
        exact ⟨h1, List.nodup_cons.mp h2, h3⟩
      by_cases hg : g' = g
      · rw [if_pos hg] at hget
        injection hget with hget
        subst hg
        refine ⟨s', cattrs, craw, σ0, σ1, hget.symm, hget ▸ hbc,
          by simp [findField, SField.fname], ?_⟩
        intro k e hke
        have hsid_notin : synthKey s' (pfx ++ "__" ++ g') ∉ pyKeys craw := by
          intro hmem
          exact hndparts.2.2 hmem (List.mem_cons_self _ _)
        rw [← hget, pyIns_eq_append craw _ _ hsid_notin] at hke
        rcases pyGet_append_cases craw _ k e hke with hcc | ⟨hnot, hcc⟩
        · rw [pyGet_append_left craw _ k (by rw [hcc]; rfl)]
          exact hcc
        · simp only [pyGet] at hcc
          by_cases hks : synthKey s' (pfx ++ "__" ++ g') = k
          · rw [if_pos hks] at hcc
            injection hcc with hcc
            rw [pyGet_append_right craw _ k hnot]
            simp only [pyGet, if_pos hks]
            rw [hcc]
          · rw [if_neg hks] at hcc
            cases hcc
      · rw [if_neg hg] at hget
        obtain ⟨s2, cattrs2, craw2, σ2, σ3, hceq, hbc2, hff, hlift⟩ :=
          segsOK_sub_lookup h fs pfx extR aextR g c hrest hndparts.2.1.2 hget hc
        refine ⟨s2, cattrs2, craw2, σ2, σ3, hceq, hbc2,
          by simp [findField, SField.fname, hg, hff], ?_⟩
        intro k e hke
        have hk := hlift k e hke
        have hkm := pyGet_some_mem extR k e hk
        have hk_not_craw : k ∉ pyKeys craw := by
          intro hmem
          exact hndparts.2.2 hmem (List.mem_cons_of_mem _ hkm)
        have hk_ne_sid : ¬ (synthKey s' (pfx ++ "__" ++ g') = k) :=
          fun heq => hndparts.2.1.1 (heq ▸ hkm)
        rw [pyGet_append_right craw _ k hk_not_craw]
        simp only [pyGet, if_neg hk_ne_sid]
        exact hk

/-- Reachability of a node inside a proxy tree by attribute navigation. -/
inductive IsSubnode {α : Type} : PEntry α → PEntry α → Prop where
  | refl : ∀ n, IsSubnode n n
  | step : ∀ (s : Schema) (sid : String) (attrs raw : List (String × PEntry α))
      (g : String) (c x : PEntry α),
      pyGet attrs g = some c → IsSubnode c x →
      IsSubnode (.node s sid attrs raw) x

theorem isSubnode_proxy {α : Type} {c x : PEntry α} (h : IsSubnode c x)
    (hx : is_proxy_class x = true) : is_proxy_class c = true := by
  cases h with
  | refl => exact hx
  | step => rfl

/-- Containment of every reachable sub-node's field dict in the root's,
under pairwise-distinct derived keys. -/
theorem subnode_containment {α : Type} (h : Handler α) : ∀ (n x : PEntry α), IsSubnode n x →
    ∀ (s : Schema) (ns : String) (σ σ' : Store) (m : List (String × PEntry α)),
    build_proxy_cls h s ns σ = (σ', .ok (n, m)) →
    (fullKeysSpec s ns).Nodup → NamesOK s → is_proxy_class x = true →
    ∃ dn dx, get_field_proxy_dict n = .ok dn ∧ get_field_proxy_dict x = .ok dx ∧
      ∀ k e, pyGet dx k = some e → pyGet dn k = some e := by
  intro n x hsub
  induction hsub with
  | refl n =>
      intro s ns σ σ' m hb hnd hnames hx
      obtain ⟨attrs, hn⟩ := build_shape h s ns σ σ' n m hb
      subst hn
      exact ⟨_, _, rfl, rfl, fun k e hke => hke⟩
  | step s0 sid0 attrs raw g c x hget hsub' ih =>
      intro s ns σ σ' m hb hnd hnames hx
      obtain ⟨attrs1, hn1, hkeys, hkattrs, hsegs⟩ := build_char h s ns σ σ' _ m hb hnd hnames
      injection hn1 with e1 e2 e3 e4
      subst e1
      subst e2
      subst e3
      subst e4
      have hc : is_proxy_class c = true := isSubnode_proxy hsub' hx
      have hm_nodup : (pyKeys raw).Nodup := by
        rw [hkeys]
        rcases List.nodup_append.mp (by simpa [fullKeysSpec] using hnd) with ⟨h1, _, _⟩
        exact h1
      obtain ⟨s2, cattrs, craw, σ0, σ1, hceq, hbc, hff, hlift⟩ :=
        segsOK_sub_lookup h s0.fields (synthKey s0 ns) raw attrs g c hsegs hm_nodup hget hc
      have hnd2 : (fullKeysSpec s2 (synthKey s0 ns ++ "__" ++ g)).Nodup := by
        have hsubl := findField_sub_keys_sublist s0.fields (synthKey s0 ns) g s2 hff
        have hraw_nodup : (fieldsKeysSpec s0.fields (synthKey s0 ns)).Nodup := by
          rw [← rawKeysSpec_eq_fields]
          rcases List.nodup_append.mp (by simpa [fullKeysSpec] using hnd) with ⟨h1, _, _⟩
          exact h1
        exact hsubl.nodup hraw_nodup
      have hnames2 : NamesOK s2 := by
        cases s0 with
        | mk cname fs =>
            simp only [NamesOK] at hnames
            exact namesOKF_findField fs g g s2 hnames.2 (by simpa [Schema.fields] using hff)
      subst hceq
      obtain ⟨dc, dx, hdc, hdx, hcx⟩ :=
        ih s2 (synthKey s0 ns ++ "__" ++ g) σ0 σ1 craw hbc hnd2 hnames2 hx
      have hsynth_notin : synthKey s0 ns ∉ pyKeys raw := by
        rw [hkeys]
        rcases List.nodup_append.mp (by simpa [fullKeysSpec] using hnd) with ⟨_, _, hdj⟩
        intro hmem
        exact hdj hmem (List.mem_singleton_self _)
      have hdc_eq : dc = pyIns craw (synthKey s2 (synthKey s0 ns ++ "__" ++ g))
          (.node s2 (synthKey s2 (synthKey s0 ns ++ "__" ++ g)) cattrs craw) := by
        simp only [get_field_proxy_dict, Except.ok.injEq] at hdc
        exact hdc.symm
      refine ⟨raw ++ [(synthKey s0 ns, .node s0 (synthKey s0 ns) attrs raw)], dx, ?_, hdx, ?_⟩
      · simp [get_field_proxy_dict, pyIns_eq_append raw _ _ hsynth_notin]
      · intro k e hke
        have h1 := hcx k e hke
        rw [hdc_eq] at h1
        have h2 := hlift k e h1
        rw [pyGet_append_left raw _ k (by rw [h2]; rfl)]
        exact h2

/-- C10 (amended): provided all derived keys of the schema under the
namespace are pairwise distinct, the flat field index of every sub-record
proxy reachable in the tree is contained in the root's flat field index
with the same accessor objects, so value-key resolution against the
root's index succeeds for tokens at any nesting depth. -/
theorem C10_flat_index_containment {α : Type} (h : Handler α) (s : Schema) (ns : String)
    (σ σ' : Store) (n : PEntry α) (m : List (String × PEntry α))
    (hb : build_proxy_cls h s ns σ = (σ', .ok (n, m)))
    (hnd : (fullKeysSpec s ns).Nodup) (hnames : NamesOK s)
    (x : PEntry α) (hsub : IsSubnode n x) (hx : is_proxy_class x = true) :
    ∃ dn dx, get_field_proxy_dict n = .ok dn ∧ get_field_proxy_dict x = .ok dx ∧
      ∀ k e, pyGet dx k = some e → pyGet dn k = some e :=
  subnode_containment h n x hsub s ns σ σ' m hb hnd hnames hx

/-- The value proxy built on the colliding schema (fallback never taken). -/
def vColl : PEntry ProxyFieldM × List (String × PEntry ProxyFieldM) :=
  (state_proxy (default_encoder 0) sColl "" []).2.toOption.getD (.leaf pfJunk, [])

/-- The nested sub-proxy at attribute `b` of the colliding schema. -/
def vCollChild : PEntry ProxyFieldM := (nodeAt vColl.1 ["b"]).getD (.leaf pfJunk)

/-- The field name recorded in a leaf accessor (used to tell accessors
apart without comparing their codec functions). -/
def entryLeafName : PEntry ProxyFieldM → Option String
  | .leaf a => some a.name
  | _ => none

/-- C10 (counterexample): under the key collision of `sColl`, the key
`Outer__b__B__x` maps to the nested leaf `x` in the sub-record's field
dict but to the outer leaf `b__B__x` in the root's field dict — a later
assignment overwrote the child's entry in the root dict only — so the
sub-record's index is not contained in the root's with the same
accessors. -/
theorem C10_counterexample_collision :
    (get_field_proxy_dict vCollChild).map
        (fun d => (pyGet d "Outer__b__B__x").bind entryLeafName) = .ok (some "x") ∧
      (get_field_proxy_dict vColl.1).map
        (fun d => (pyGet d "Outer__b__B__x").bind entryLeafName) = .ok (some "b__B__x") ∧
      some "x" ≠ some "b__B__x" :=
  ⟨rfl, rfl, by decide⟩

/-- The nested sub-proxy at attribute `my_other_data` of the test schema. -/
def vBiggerChild : PEntry ProxyFieldM := (nodeAt vBigger.1 ["my_other_data"]).getD (.leaf pfJunk)

/-- Witness for C10: the nested sub-proxy of the test schema. -/
theorem C10_flat_index_containment_witness :
    ∃ dn dx, get_field_proxy_dict vBigger.1 = .ok dn ∧
      get_field_proxy_dict vBiggerChild = .ok dx ∧
      ∀ k e, pyGet dx k = some e → pyGet dn k = some e :=
  C10_flat_index_containment (proxyHandler (default_encoder 0)) sBigger "" []
    (state_proxy (default_encoder 0) sBigger "" []).1 vBigger.1 vBigger.2 rfl
    (by decide) namesOK_sBigger vBiggerChild
    (IsSubnode.step _ _ _ _ "my_other_data" _ _ rfl (IsSubnode.refl _))
    rfl

/-! ## C9: failed encode/decode during mutation -/

/-- A dataclass instance value: a leaf value or a record instance with its
class name and field values. -/
inductive DVal where
  | leafV (v : PVal)
  | recV (cls : String) (fields : List (String × DVal))

mutual
/-- `from_dataclass`: checks the proxy metadata and the instance type,
then walks the fields in declaration order.  For each leaf, Python's
`getattr(instance, f.name)` triggers the descriptor and decodes the
current store value before the new value is written with `set_value`
(encode, then store).  For each nested record it recurses.  Recursion is
driven by the declared schema; for proxies built by `build_proxy_cls` the
node's stored dataclass type coincides with it.  Errors carry the store
mutated so far: Python exceptions do not roll back earlier writes. -/
def from_dataclass : Schema → PEntry ProxyFieldM → DVal → Store → Store × Option PErr
  | .mk cname fs, inst, dv, σ =>
      match inst with
      | .leaf _ => (σ, some .runtimeError)
      | .node _ _ attrs _ =>
          match dv with
          | .leafV _ => (σ, some .typeError)
          | .recV cls dfs =>
              if cls = cname then from_fields fs attrs dfs σ else (σ, some .typeError)
def from_fields : SFields → List (String × PEntry ProxyFieldM) → List (String × DVal) →
    Store → Store × Option PErr
  | .nil, _, _, σ => (σ, none)
  | .cons (.leaf l) fs, attrs, dfs, σ =>
      match pyGet attrs l.name with
      | none => (σ, some .attributeError)
      | some (.node _ _ _ _) => (σ, some .typeError)
      | some (.leaf a) =>
          match a.get_value σ with
          | .error e => (σ, some e)
          | .ok _ =>
              match pyGet dfs l.name with
              | none => (σ, some .attributeError)
              | some (.recV _ _) => (σ, some .typeError)
              | some (.leafV v) =>
                  match a.set_value v σ with
                  | (σ', some e) => (σ', some e)
                  | (σ', none) => from_fields fs attrs dfs σ'
  | .cons (.sub g s') fs, attrs, dfs, σ =>
      match pyGet attrs g with
      | none => (σ, some .attributeError)
      | some (.leaf _) => (σ, some .typeError)
      | some (.node s2 sid2 cattrs craw) =>
          match pyGet dfs g with
          | none => (σ, some .attributeError)
          | some sub_dv =>
              match from_dataclass s' (.node s2 sid2 cattrs craw) sub_dv σ with
              | (σ', some e) => (σ', some e)
              | (σ', none) => from_fields fs attrs dfs σ'
end

/-- A schema with an int leaf followed by a date leaf, no defaults. -/
def sTwo : Schema :=
  .mk "S2" (.cons (.leaf ⟨"a", .tInt, none, none⟩)
    (.cons (.leaf ⟨"b", .tDate, none, none⟩) .nil))

/-- Store before the failing `from_dataclass` call: `a` holds 1 and `b`
holds a string no date can be parsed from. -/
def sigmaC9 : Store := [("S2__a", PVal.pint 1), ("S2__b", PVal.pstr "x")]

/-- The value proxy for `sTwo` over that store (fallback never taken). -/
def vTwo : PEntry ProxyFieldM × List (String × PEntry ProxyFieldM) :=
  (state_proxy (default_encoder 0) sTwo "" sigmaC9).2.toOption.getD (.leaf pfJunk, [])

/-- C9 (counterexample): populating the proxy from `S2(a=42, b=date(..))`
writes `a := 42`, then the descriptor read of `b` decodes the stored
`"x"` and raises `ValueError`; the operation aborts with the store
already changed from its prior state (`a` was 1, is now 42). -/
theorem C9_counterexample_partial_write :
    from_dataclass sTwo vTwo.1
        (.recV "S2" [("a", .leafV (.pint 42)), ("b", .leafV (.dateV 0))]) sigmaC9 =
      ([("S2__a", PVal.pint 42), ("S2__b", PVal.pstr "x")], some .valueError) ∧
      Store.get sigmaC9 "S2__a" = some (.pint 1) ∧
      Store.get [("S2__a", PVal.pint 42), ("S2__b", PVal.pstr "x")] "S2__a" =
        some (.pint 42) :=
  ⟨rfl, rfl, rfl⟩

/-- C9 (amended): a leaf write through the value proxy evaluates the
encode before the store assignment, so if the encode raises, the write
aborts with the store unchanged.  (`from_dataclass`, by contrast, leaves
the writes of earlier fields in place when a later field fails.) -/
theorem C9_leaf_write_abort (a : ProxyFieldM) (v : PVal) (σ : Store) (e : PErr)
    (henc : a.enc.encode v = .error e) : a.set_value v σ = (σ, some e) := by
  simp [ProxyFieldM.set_value, henc]

/-- A codec whose encode always raises. -/
def failCodec : Codec := ⟨fun _ => .error .typeError, fun _ _ => .error .typeError⟩

/-- Witness for C9: a write through an accessor with an always-failing
encoder leaves the store exactly as it was. -/
theorem C9_leaf_write_abort_witness :
    failCodec.encode (.pint 0) = .error .typeError ∧
      ProxyFieldM.set_value ⟨"k", "f", .tInt, none, failCodec⟩ (.pint 0) [("k", .pint 7)] =
        ([("k", .pint 7)], some .typeError) :=
  ⟨rfl, C9_leaf_write_abort ⟨"k", "f", .tInt, none, failCodec⟩ (.pint 0) [("k", .pint 7)]
    .typeError rfl⟩

/-! ## C7: binder argument composition (`bind_typed_state_change`) -/

/-- Python list comprehension over a fallible body: the first raised
exception propagates, otherwise the list of results. -/
def mapE {γ δ : Type} (f : γ → Except PErr δ) : List γ → Except PErr (List δ)
  | [] => .ok []
  | x :: xs =>
      match f x with
      | .error e => .error e
      | .ok y =>
          match mapE f xs with
          | .error e => .error e
          | .ok ys => .ok (y :: ys)

/-- Collecting an optional value per element; `none` when any is missing. -/
def mapO {γ δ : Type} (f : γ → Option δ) : List γ → Option (List δ)
  | [] => some []
  | x :: xs =>
      match f x with
      | none => none
      | some y =>
          match mapO f xs with
          | none => none
          | some ys => some (y :: ys)

theorem mapE_length {γ δ : Type} (f : γ → Except PErr δ) :
    ∀ (xs : List γ) (ys : List δ), mapE f xs = .ok ys → ys.length = xs.length
  | [], ys, h => by
      simp only [mapE, Except.ok.injEq] at h
      subst h
      rfl
  | x :: xs, ys, h => by
      simp only [mapE] at h
      cases hx : f x with
      | error e => rw [hx] at h; cases h
      | ok y =>
          rw [hx] at h
          cases hrec : mapE f xs with
          | error e => rw [hrec] at h; cases h
          | ok ys0 =>
              rw [hrec] at h
              simp only [Except.ok.injEq] at h
              subst h
              simp [mapE_length f xs ys0 hrec]

theorem mapO_length {γ δ : Type} (f : γ → Option δ) :
    ∀ (xs : List γ) (ys : List δ), mapO f xs = some ys → ys.length = xs.length
  | [], ys, h => by
      simp only [mapO, Option.some.injEq] at h
      subst h
      rfl
  | x :: xs, ys, h => by
      simp only [mapO] at h
      cases hx : f x with
      | none => rw [hx] at h; cases h
      | some y =>
          rw [hx] at h
          cases hrec : mapO f xs with
          | none => rw [hrec] at h; cases h
          | some ys0 =>
              rw [hrec] at h
              simp only [Option.some.injEq] at h
              subst h
              simp [mapO_length f xs ys0 hrec]

/-- `get_value_state_keys`: `get_state_id(key, key)` per token.  A plain
string carries no state-id attribute, so the default — the token itself —
is returned; a proxy node yields its synthetic key.  (The public API never
passes a bare leaf accessor as a token — attribute access on a value proxy
returns the decoded value — so the default in that branch is
immaterial.) -/
def get_value_state_keys {α : Type} : List (String ⊕ PEntry α) → List String
  | [] => []
  | .inl k :: r => k :: get_value_state_keys r
  | .inr p :: r => getStateId p "" :: get_value_state_keys r

/-- A positional callback argument: a decoded leaf value or a live proxy
node. -/
inductive CBArg where
  | val (v : PVal)
  | prox (p : PEntry ProxyFieldM)

/-- Resolution of one looked-up field-dict entry inside `_on_state_change`
(line 429): a proxy node is passed through unchanged — the live proxy
itself, not a snapshot — and a leaf accessor is read with `get_value`
against the call-time store. -/
def resolveValue (σc : Store) : PEntry ProxyFieldM → Except PErr CBArg
  | .node s sid attrs raw => .ok (.prox (.node s sid attrs raw))
  | .leaf a => (a.get_value σc).map .val

/-- The body of `_on_state_change` (lines 428-430): first the list of
field-dict lookups (a `KeyError` surfaces at the first missing key), then
the per-entry resolution against the call-time store.  The final
`callback(*values)` call itself is outside the model; the computed
argument list is returned. -/
def on_state_change (fd : List (String × PEntry ProxyFieldM)) (vkeys : List String)
    (σc : Store) : Except PErr (List CBArg) :=
  match mapE (fun k =>
      match pyGet fd k with
      | none => Except.error PErr.keyError
      | some v => Except.ok v) vkeys with
  | .error e => .error e
  | .ok values => mapE (resolveValue σc) values

/-- `bind_typed_state_change`: resolves the field dict of the data root
and the tokens' value keys at bind time, registers the reactive keys, and
closes `_on_state_change` over both.  The result is the reactive key list
passed to `state.change` together with the callback-argument computation
as a function of the call-time store. -/
def bind_typed_state_change (toks : List (String ⊕ PEntry ProxyFieldM))
    (data : PEntry ProxyFieldM) :
    Except PErr (List String × (Store → Except PErr (List CBArg))) :=
  match get_field_proxy_dict data with
  | .error e => .error e
  | .ok fd =>
      .ok (get_reactive_state_id_keys toks,
        fun σc => on_state_change fd (get_value_state_keys toks) σc)

/-- Claim-side schema navigation: the record type and derived namespace
reached by following a path of sub-record field names from a record built
under a namespace. -/
def specNodeInfo : Schema → String → List String → Option (Schema × String)
  | s, ns, [] => some (s, ns)
  | s, ns, g :: p =>
      match findField s.fields g with
      | some (.sub _ s2) => specNodeInfo s2 (synthKey s ns ++ "__" ++ g) p
      | _ => none

/-- A requested binding token named by schema position: a leaf token is
the derived key string of leaf field `f` of the record at `path` (the
string the name proxy exposes there), and a sub-record token is the
value-proxy node at `path`. -/
inductive TokSpec where
  | leafTok (path : List String) (f : String)
  | subTok (path : List String)

/-- The actual token a user forms for a spec against the built proxy. -/
def mkTok (s : Schema) (ns : String) (vn : PEntry ProxyFieldM) :
    TokSpec → Option (String ⊕ PEntry ProxyFieldM)
  | .leafTok path f =>
      match specNodeInfo s ns path with
      | some (s2, ns2) =>
          match findField s2.fields f with
          | some (.leaf _) => some (.inl (synthKey s2 ns2 ++ "__" ++ f))
          | _ => none
      | none => none
  | .subTok path =>
      match specNodeInfo s ns path with
      | some _ => (nodeAt vn path).map Sum.inr
      | none => none

/-- The claim's expected callback argument per token at call-time store
`σc`: for a sub-record token the live proxy node at that path itself, and
for a leaf token the store value current at call time, decoded to the
declared field type. -/
def expectedArg (enc : Codec) (s : Schema) (ns : String) (vn : PEntry ProxyFieldM)
    (σc : Store) : TokSpec → Except PErr CBArg
  | .subTok path =>
      match nodeAt vn path with
      | some p => .ok (.prox p)
      | none => .error .keyError
  | .leafTok path f =>
      match specNodeInfo s ns path with
      | some (s2, ns2) =>
          match findField s2.fields f with
          | some (.leaf l) =>
              match Store.get σc (synthKey s2 ns2 ++ "__" ++ f) with
              | none => .error .keyError
              | some raw => (enc.decode raw l.ty).map .val
          | _ => .error .keyError
      | none => .error .keyError

/-- Reading a leaf attribute through a delivered proxy node: a `getattr`
reaching the accessor, then the accessor's `get_value` against the
read-time store. -/
def readLeafThrough (p : PEntry ProxyFieldM) (f : String) (σr : Store) :
    Except PErr PVal :=
  match p with
  | .node _ _ attrs _ =>
      match pyGet attrs f with
      | some (.leaf a) => a.get_value σr
      | _ => .error .attributeError
  | .leaf _ => .error .attributeError

/-- The field returned by `findField` carries the searched name. -/
theorem findField_fname : ∀ (fs : SFields) (g : String) (f : SField),
    findField fs g = some f → f.fname = g
  | .nil, g, f, hf => by simp [findField] at hf
  | .cons f0 fs, g, f, hf => by
      simp only [findField] at hf
      by_cases hg : f0.fname = g
      · rw [if_pos hg] at hf
        injection hf with hf
        subst hf
        exact hg
      · rw [if_neg hg] at hf
        exact findField_fname fs g f hf

/-- Resolve a leaf field found by name inside `AttrsOK`: the class
namespace holds the handler-produced accessor under the field name. -/
theorem attrsOK_findField_leaf {α : Type} (h : Handler α) : ∀ (fs : SFields) (pfx : String)
    (aext : List (String × PEntry α)) (f : String) (l : SLeaf),
    AttrsOK h fs pfx aext → findField fs f = some (.leaf l) →
    ∃ a σ σ', pyGet aext f = some (.leaf a) ∧ h σ (pfx ++ "__" ++ f) l = (σ', .ok a)
  | .nil, pfx, aext, f, l, hok, hf => by simp [findField] at hf
  | .cons (.leaf l0) fs, pfx, aext, f, l, hok, hf => by
      obtain ⟨a, aextR, hae, ⟨σ, σ', hh⟩, hrest⟩ := hok
      subst hae
      simp only [findField, SField.fname] at hf
      by_cases hg : l0.name = f
      · rw [if_pos hg] at hf
        injection hf with hf
        injection hf with hf
        subst hf
        exact ⟨a, σ, σ', by simp [pyGet, hg], hg ▸ hh⟩
      · rw [if_neg hg] at hf
        obtain ⟨a2, σ0, σ1, hget, hh2⟩ := attrsOK_findField_leaf h fs pfx aextR f l hrest hf
        exact ⟨a2, σ0, σ1, by simp only [pyGet, if_neg hg]; exact hget, hh2⟩
  | .cons (.sub g' s') fs, pfx, aext, f, l, hok, hf => by
      obtain ⟨cattrs, craw, aextR, σ, σ', hbc, hae, hrest⟩ := hok
      subst hae
      simp only [findField, SField.fname] at hf
      by_cases hg : g' = f
      · rw [if_pos hg] at hf
        injection hf with hf
        cases hf
      · rw [if_neg hg] at hf
        obtain ⟨a2, σ0, σ1, hget, hh2⟩ := attrsOK_findField_leaf h fs pfx aextR f l hrest hf
        exact ⟨a2, σ0, σ1, by simp only [pyGet, if_neg hg]; exact hget, hh2⟩

/-- Resolve a sub-record field found by name inside `AttrsOK`: the class
namespace holds the recursively built child node under the field name. -/
theorem attrsOK_findField_sub {α : Type} (h : Handler α) : ∀ (fs : SFields) (pfx : String)
    (aext : List (String × PEntry α)) (g : String) (s2 : Schema),
    AttrsOK h fs pfx aext → findField fs g = some (.sub g s2) →
    ∃ cattrs craw σ σ',
      pyGet aext g = some (.node s2 (synthKey s2 (pfx ++ "__" ++ g)) cattrs craw) ∧
      build_proxy_cls h s2 (pfx ++ "__" ++ g) σ =
        (σ', .ok (.node s2 (synthKey s2 (pfx ++ "__" ++ g)) cattrs craw, craw))
  | .nil, pfx, aext, g, s2, hok, hf => by simp [findField] at hf
  | .cons (.leaf l0) fs, pfx, aext, g, s2, hok, hf => by
      obtain ⟨a, aextR, hae, hh, hrest⟩ := hok
      subst hae
      simp only [findField, SField.fname] at hf
      by_cases hg : l0.name = g
      · rw [if_pos hg] at hf
        injection hf with hf
        cases hf
      · rw [if_neg hg] at hf
        obtain ⟨cattrs, craw, σ0, σ1, hget, hbc⟩ := attrsOK_findField_sub h fs pfx aextR g s2 hrest hf
        exact ⟨cattrs, craw, σ0, σ1, by simp only [pyGet, if_neg hg]; exact hget, hbc⟩
  | .cons (.sub g' s') fs, pfx, aext, g, s2, hok, hf => by
      obtain ⟨cattrs, craw, aextR, σ, σ', hbc, hae, hrest⟩ := hok
      subst hae
      simp only [findField, SField.fname] at hf
      by_cases hg : g' = g
      · rw [if_pos hg] at hf
        injection hf with hf
        injection hf with hf1 hf2
        subst hg
        subst hf2
        exact ⟨cattrs, craw, σ, σ', by simp [pyGet], hbc⟩
      · rw [if_neg hg] at hf
        obtain ⟨cattrs2, craw2, σ0, σ1, hget, hbc2⟩ :=
          attrsOK_findField_sub h fs pfx aextR g s2 hrest hf
        exact ⟨cattrs2, craw2, σ0, σ1, by simp only [pyGet, if_neg hg]; exact hget, hbc2⟩

/-- Resolve a leaf field found by name inside `SegsOK`: under distinct
keys the merged dict holds the handler-produced accessor under the leaf's
derived key. -/
theorem segsOK_findField_leaf {α : Type} (h : Handler α) : ∀ (fs : SFields) (pfx : String)
    (ext aext : List (String × PEntry α)) (f : String) (l : SLeaf),
    SegsOK h fs pfx ext aext → (pyKeys ext).Nodup → findField fs f = some (.leaf l) →
    ∃ a σ σ', pyGet ext (pfx ++ "__" ++ f) = some (.leaf a) ∧
      h σ (pfx ++ "__" ++ f) l = (σ', .ok a)
  | .nil, pfx, ext, aext, f, l, hsegs, hnd, hf => by simp [findField] at hf
  | .cons (.leaf l0) fs, pfx, ext, aext, f, l, hsegs, hnd, hf => by
      obtain ⟨a, extR, aextR, hext, haext, ⟨σ, σ', hh⟩, hrest⟩ := hsegs
      subst hext
      subst haext
      simp only [findField, SField.fname] at hf
      by_cases hg : l0.name = f
      · rw [if_pos hg] at hf
        injection hf with hf
        injection hf with hf
        subst hf
        exact ⟨a, σ, σ', by simp [pyGet, hg], hg ▸ hh⟩
      · rw [if_neg hg] at hf
        simp only [pyKeys_cons, List.nodup_cons] at hnd
        obtain ⟨a2, σ0, σ1, hget, hh2⟩ :=
          segsOK_findField_leaf h fs pfx extR aextR f l hrest hnd.2 hf
        have hkm := pyGet_some_mem extR _ _ hget
        have hne : ¬ ((pfx ++ "__" ++ l0.name) = (pfx ++ "__" ++ f)) :=
          fun heq => hnd.1 (heq ▸ hkm)
        exact ⟨a2, σ0, σ1, by simp only [pyGet, if_neg hne]; exact hget, hh2⟩
  | .cons (.sub g' s') fs, pfx, ext, aext, f, l, hsegs, hnd, hf => by
      obtain ⟨cattrs, craw, extR, aextR, σ0, σ1, hbc, hext, haext, hrest⟩ := hsegs
      subst hext
      subst haext
      simp only [findField, SField.fname] at hf
      have hndparts : (pyKeys craw).Nodup ∧
          (synthKey s' (pfx ++ "__" ++ g') ∉ pyKeys extR ∧ (pyKeys extR).Nodup) ∧
          List.Disjoint (pyKeys craw)
            (synthKey s' (pfx ++ "__" ++ g') :: pyKeys extR) := by
        rw [pyKeys_append, pyKeys_cons] at hnd
        rcases List.nodup_append.mp hnd with ⟨h1, h2, h3⟩
        exact ⟨h1, List.nodup_cons.mp h2, h3⟩
      by_cases hg : g' = f
      · rw [if_pos hg] at hf
        injection hf with hf
        cases hf
      · rw [if_neg hg] at hf
        obtain ⟨a2, σ2, σ3, hget, hh2⟩ :=
          segsOK_findField_leaf h fs pfx extR aextR f l hrest hndparts.2.1.2 hf
        have hkm := pyGet_some_mem extR _ _ hget
        have hk_not_craw : (pfx ++ "__" ++ f) ∉ pyKeys craw := by
          intro hmem
          exact hndparts.2.2 hmem (List.mem_cons_of_mem _ hkm)
        have hk_ne_sid : ¬ (synthKey s' (pfx ++ "__" ++ g') = (pfx ++ "__" ++ f)) :=
          fun heq => hndparts.2.1.1 (heq ▸ hkm)
        refine ⟨a2, σ2, σ3, ?_, hh2⟩
        rw [pyGet_append_right craw _ _ hk_not_craw]
        simp only [pyGet, if_neg hk_ne_sid]
        exact hget

/-- Navigation through a built tree follows the claim-side schema
navigation: at every valid path the tree holds the recursively built
child, with key distinctness and name distinctness propagated, and the
child is reachable by attribute steps. -/
theorem nav_spec {α : Type} (h : Handler α) : ∀ (path : List String) (s : Schema) (ns : String)
    (σ σ' : Store) (n : PEntry α) (m : List (String × PEntry α)),
    build_proxy_cls h s ns σ = (σ', .ok (n, m)) →
    (fullKeysSpec s ns).Nodup → NamesOK s →
    ∀ (s2 : Schema) (ns2 : String), specNodeInfo s ns path = some (s2, ns2) →
    ∃ cattrs craw σ1 σ2,
      nodeAt n path = some (.node s2 (synthKey s2 ns2) cattrs craw) ∧
      build_proxy_cls h s2 ns2 σ1 = (σ2, .ok (.node s2 (synthKey s2 ns2) cattrs craw, craw)) ∧
      (fullKeysSpec s2 ns2).Nodup ∧ NamesOK s2 ∧
      IsSubnode n (.node s2 (synthKey s2 ns2) cattrs craw)
  | [], s, ns, σ, σ', n, m, hb, hnd, hnames, s2, ns2, hspec => by
      simp only [specNodeInfo, Option.some.injEq, Prod.mk.injEq] at hspec
      obtain ⟨hs, hns⟩ := hspec
      subst hs
      subst hns
      obtain ⟨attrs, hn⟩ := build_shape h s ns σ σ' n m hb
      subst hn
      exact ⟨attrs, m, σ, σ', rfl, hb, hnd, hnames, IsSubnode.refl _⟩
  | g :: p, s, ns, σ, σ', n, m, hb, hnd, hnames, s2, ns2, hspec => by
      cases hff : findField s.fields g with
      | none => simp [specNodeInfo, hff] at hspec
      | some fld =>
          cases fld with
          | leaf l => simp [specNodeInfo, hff] at hspec
          | sub g0 s' =>
              simp only [specNodeInfo, hff] at hspec
              have hg0 : g0 = g := findField_fname s.fields g (.sub g0 s') hff
              rw [hg0] at hff
              obtain ⟨attrs, hn, hkattrs, hattrsOK⟩ := build_attrs_char h s ns σ σ' n m hb hnames
              obtain ⟨cattrs, craw, σa, σb, hgetattrs, hbc⟩ :=
                attrsOK_findField_sub h s.fields (synthKey s ns) attrs g s' hattrsOK hff
              have hnd2 : (fullKeysSpec s' (synthKey s ns ++ "__" ++ g)).Nodup := by
                have hsubl := findField_sub_keys_sublist s.fields (synthKey s ns) g s' hff
                have hraw_nodup : (fieldsKeysSpec s.fields (synthKey s ns)).Nodup := by
                  rw [← rawKeysSpec_eq_fields]
                  rcases List.nodup_append.mp (by simpa [fullKeysSpec] using hnd) with ⟨h1, _, _⟩
                  exact h1
                exact hsubl.nodup hraw_nodup
              have hnames2 : NamesOK s' := by
                cases s with
                | mk cname fs =>
                    simp only [NamesOK] at hnames
                    exact namesOKF_findField fs g g s' hnames.2
                      (by simpa [Schema.fields] using hff)
              obtain ⟨cattrs2, craw2, σ1, σ2, hnav, hb2, hnd3, hnames3, hsubn⟩ :=
                nav_spec h p s' (synthKey s ns ++ "__" ++ g) σa σb
                  (.node s' (synthKey s' (synthKey s ns ++ "__" ++ g)) cattrs craw) craw
                  hbc hnd2 hnames2 s2 ns2 hspec
              subst hn
              refine ⟨cattrs2, craw2, σ1, σ2, ?_, hb2, hnd3, hnames3, ?_⟩
              · simp only [nodeAt, hgetattrs]
                exact hnav
              · exact IsSubnode.step _ _ _ _ g _ _ hgetattrs hsubn

/-- A sub-record token resolves in the root's flat field index: under
distinct keys, the node at a valid path sits in the root's field dict
under its synthetic key, which is also its `get_state_id`. -/
theorem root_lookup_sub {α : Type} (h : Handler α) (s : Schema) (ns : String)
    (σ σ' : Store) (n : PEntry α) (m : List (String × PEntry α))
    (hb : build_proxy_cls h s ns σ = (σ', .ok (n, m)))
    (hnd : (fullKeysSpec s ns).Nodup) (hnames : NamesOK s)
    (path : List String) (s2 : Schema) (ns2 : String)
    (hspec : specNodeInfo s ns path = some (s2, ns2)) :
    ∃ p dn, nodeAt n path = some p ∧ is_proxy_class p = true ∧
      getStateId p "" = synthKey s2 ns2 ∧
      get_field_proxy_dict n = .ok dn ∧ pyGet dn (synthKey s2 ns2) = some p := by
  obtain ⟨cattrs, craw, σ1, σ2, hnav, hb2, hnd2, hnames2, hsubn⟩ :=
    nav_spec h path s ns σ σ' n m hb hnd hnames s2 ns2 hspec
  obtain ⟨dn, dx, hdn, hdx, hcont⟩ :=
    subnode_containment h n _ hsubn s ns σ σ' m hb hnd hnames rfl
  obtain ⟨cattrs0, hcn, hkeys, hkattrs, hsegs⟩ :=
    build_char h s2 ns2 σ1 σ2 _ craw hb2 hnd2 hnames2
  have hsynth_notin : synthKey s2 ns2 ∉ pyKeys craw := by
    rw [hkeys]
    simp only [fullKeysSpec] at hnd2
    rcases List.nodup_append.mp hnd2 with ⟨_, _, hdj⟩
    intro hmem
    exact hdj hmem (List.mem_singleton_self _)
  have hdx_eq : dx = craw ++ [(synthKey s2 ns2,
      .node s2 (synthKey s2 ns2) cattrs craw)] := by
    simp only [get_field_proxy_dict, Except.ok.injEq] at hdx
    rw [← hdx, pyIns_eq_append craw _ _ hsynth_notin]
  have hdxget : pyGet dx (synthKey s2 ns2) =
      some (.node s2 (synthKey s2 ns2) cattrs craw) := by
    rw [hdx_eq, pyGet_append_right craw _ _ hsynth_notin]
    simp [pyGet]
  exact ⟨.node s2 (synthKey s2 ns2) cattrs craw, dn, hnav, rfl, rfl, hdn,
    hcont _ _ hdxget⟩

/-- A leaf token's derived key resolves in the root's flat field index to
the accessor built by the value-proxy handler for that leaf. -/
theorem root_lookup_leaf (enc : Codec) (s : Schema) (ns : String)
    (σ σ' : Store) (n : PEntry ProxyFieldM) (m : List (String × PEntry ProxyFieldM))
    (hb : build_proxy_cls (proxyHandler enc) s ns σ = (σ', .ok (n, m)))
    (hnd : (fullKeysSpec s ns).Nodup) (hnames : NamesOK s)
    (path : List String) (f : String) (s2 : Schema) (ns2 : String) (l : SLeaf)
    (hspec : specNodeInfo s ns path = some (s2, ns2))
    (hfl : findField s2.fields f = some (.leaf l)) :
    ∃ dn, get_field_proxy_dict n = .ok dn ∧
      pyGet dn (synthKey s2 ns2 ++ "__" ++ f) =
        some (.leaf ⟨synthKey s2 ns2 ++ "__" ++ f, l.name, l.ty, l.default, enc⟩) := by
  obtain ⟨cattrs, craw, σ1, σ2, hnav, hb2, hnd2, hnames2, hsubn⟩ :=
    nav_spec (proxyHandler enc) path s ns σ σ' n m hb hnd hnames s2 ns2 hspec
  obtain ⟨dn, dx, hdn, hdx, hcont⟩ :=
    subnode_containment (proxyHandler enc) n _ hsubn s ns σ σ' m hb hnd hnames rfl
  obtain ⟨cattrs0, hcn, hkeys, hkattrs, hsegs⟩ :=
    build_char (proxyHandler enc) s2 ns2 σ1 σ2 _ craw hb2 hnd2 hnames2
  have hcraw_nodup : (pyKeys craw).Nodup := by
    rw [hkeys]
    simp only [fullKeysSpec] at hnd2
    rcases List.nodup_append.mp hnd2 with ⟨h1, _, _⟩
    exact h1
  obtain ⟨a, σa, σb, hget, hha⟩ :=
    segsOK_findField_leaf (proxyHandler enc) s2.fields (synthKey s2 ns2) craw cattrs0
      f l hsegs hcraw_nodup hfl
  have ha : a = ⟨synthKey s2 ns2 ++ "__" ++ f, l.name, l.ty, l.default, enc⟩ :=
    proxyHandler_ok enc σa _ l σb a hha
  subst ha
  have hsynth_notin : synthKey s2 ns2 ∉ pyKeys craw := by
    rw [hkeys]
    simp only [fullKeysSpec] at hnd2
    rcases List.nodup_append.mp hnd2 with ⟨_, _, hdj⟩
    intro hmem
    exact hdj hmem (List.mem_singleton_self _)
  have hdx_eq : dx = craw ++ [(synthKey s2 ns2,
      .node s2 (synthKey s2 ns2) cattrs craw)] := by
    simp only [get_field_proxy_dict, Except.ok.injEq] at hdx
    rw [← hdx, pyIns_eq_append craw _ _ hsynth_notin]
  have hdxget : pyGet dx (synthKey s2 ns2 ++ "__" ++ f) =
      some (.leaf ⟨synthKey s2 ns2 ++ "__" ++ f, l.name, l.ty, l.default, enc⟩) := by
    rw [hdx_eq, pyGet_append_left craw _ _ (by rw [hget]; rfl)]
    exact hget
  exact ⟨dn, hdn, hcont _ _ hdxget⟩

/-- The per-token core of the binder: under distinct derived keys every
value key formed from a token resolves in the root's flat field index,
and the resolved entries map to the claim's expected arguments at every
call-time store. -/
theorem binder_core (enc : Codec) (s : Schema) (ns : String) (σ σ' : Store)
    (n : PEntry ProxyFieldM) (m : List (String × PEntry ProxyFieldM))
    (hb : build_proxy_cls (proxyHandler enc) s ns σ = (σ', .ok (n, m)))
    (hnd : (fullKeysSpec s ns).Nodup) (hnames : NamesOK s)
    (dn : List (String × PEntry ProxyFieldM))
    (hdn : get_field_proxy_dict n = .ok dn) :
    ∀ (ts : List TokSpec) (toks : List (String ⊕ PEntry ProxyFieldM)),
      mapO (mkTok s ns n) ts = some toks →
      ∃ values,
        mapE (fun k =>
          match pyGet dn k with
          | none => Except.error PErr.keyError
          | some v => Except.ok v) (get_value_state_keys toks) = .ok values ∧
        ∀ σc, mapE (resolveValue σc) values = mapE (expectedArg enc s ns n σc) ts := by
  intro ts
  induction ts with
  | nil =>
      intro toks hts
      simp only [mapO, Option.some.injEq] at hts
      subst hts
      exact ⟨[], rfl, fun σc => rfl⟩
  | cons t ts ih =>
      intro toks hts
      simp only [mapO] at hts
      cases hmk : mkTok s ns n t with
      | none => rw [hmk] at hts; cases hts
      | some b =>
          rw [hmk] at hts
          cases hrec : mapO (mkTok s ns n) ts with
          | none => rw [hrec] at hts; cases hts
          | some bs =>
              rw [hrec] at hts
              simp only [Option.some.injEq] at hts
              subst hts
              obtain ⟨valuesR, hvR, hres⟩ := ih bs hrec
              cases t with
              | leafTok path f =>
                  simp only [mkTok] at hmk
                  cases hspec : specNodeInfo s ns path with
                  | none => simp [hspec] at hmk
                  | some pr =>
                      obtain ⟨s2, ns2⟩ := pr
                      cases hffr : findField s2.fields f with
                      | none => simp [hspec, hffr] at hmk
                      | some fld =>
                          cases fld with
                          | sub g0 s0 => simp [hspec, hffr] at hmk
                          | leaf l =>
                              simp only [hspec, hffr, Option.some.injEq] at hmk
                              subst hmk
                              obtain ⟨dn', hdn', hget⟩ :=
                                root_lookup_leaf enc s ns σ σ' n m hb hnd hnames
                                  path f s2 ns2 l hspec hffr
                              rw [hdn] at hdn'
                              injection hdn' with hdn'
                              subst hdn'
                              refine ⟨.leaf ⟨synthKey s2 ns2 ++ "__" ++ f, l.name, l.ty,
                                l.default, enc⟩ :: valuesR, ?_, ?_⟩
                              · simp only [get_value_state_keys, mapE, hget, hvR]
                              · intro σc
                                have hhead : resolveValue σc (.leaf ⟨synthKey s2 ns2 ++ "__" ++ f,
                                    l.name, l.ty, l.default, enc⟩) =
                                    expectedArg enc s ns n σc (.leafTok path f) := by
                                  simp only [resolveValue, expectedArg, hspec, hffr,
                                    ProxyFieldM.get_value]
                                  cases hsg : Store.get σc (synthKey s2 ns2 ++ "__" ++ f) with
                                  | none => rfl
                                  | some raw => rfl
                                simp only [mapE]
                                rw [hhead, hres σc]
              | subTok path =>
                  simp only [mkTok] at hmk
                  cases hspec : specNodeInfo s ns path with
                  | none => simp [hspec] at hmk
                  | some pr =>
                      obtain ⟨s2, ns2⟩ := pr
                      cases hnav0 : nodeAt n path with
                      | none => simp [hspec, hnav0] at hmk
                      | some p =>
                          simp only [hspec, hnav0, Option.map_some', Option.some.injEq] at hmk
                          subst hmk
                          obtain ⟨p', dn', hnav', hproxy, hsid, hdn', hgetdn⟩ :=
                            root_lookup_sub (proxyHandler enc) s ns σ σ' n m hb hnd hnames
                              path s2 ns2 hspec
                          rw [hnav0] at hnav'
                          injection hnav' with hp'
                          subst hp'
                          rw [hdn] at hdn'
                          injection hdn' with hdn'
                          subst hdn'
                          refine ⟨p :: valuesR, ?_, ?_⟩
                          · simp only [get_value_state_keys, hsid, mapE, hgetdn, hvR]
                          · intro σc
                            have hhead : resolveValue σc p =
                                expectedArg enc s ns n σc (.subTok path) := by
                              cases p with
                              | leaf a => simp [is_proxy_class] at hproxy
                              | node s3 sid3 attrs3 raw3 =>
                                  simp only [resolveValue, expectedArg, hnav0]
                            simp only [mapE]
                            rw [hhead, hres σc]

/-- C7: for a value proxy built under pairwise-distinct derived keys and
any sequence of requested tokens (leaf-key strings and sub-record proxy
nodes at valid schema positions), `bind_typed_state_change` succeeds and
the callback receives exactly one positional argument per token, in the
original token order: for a sub-record token the argument is the live
proxy node at that path itself (whose leaf reads go through the store
passed at read time), and for a leaf token the argument is the store
value current at call time decoded to the declared field type. -/
theorem C7_binder_arguments (enc : Codec) (s : Schema) (ns : String) (σ σ' : Store)
    (n : PEntry ProxyFieldM) (m : List (String × PEntry ProxyFieldM))
    (hb : state_proxy enc s ns σ = (σ', .ok (n, m)))
    (hnd : (fullKeysSpec s ns).Nodup) (hnames : NamesOK s)
    (ts : List TokSpec) (toks : List (String ⊕ PEntry ProxyFieldM))
    (hts : mapO (mkTok s ns n) ts = some toks) :
    ∃ rkeys cb, bind_typed_state_change toks n = .ok (rkeys, cb) ∧
      toks.length = ts.length ∧
      (∀ σc, cb σc = mapE (expectedArg enc s ns n σc) ts) ∧
      (∀ σc args, cb σc = .ok args → args.length = ts.length) ∧
      (∀ (path : List String) (s2 : Schema) (ns2 : String) (p : PEntry ProxyFieldM)
        (f : String) (l : SLeaf),
        specNodeInfo s ns path = some (s2, ns2) → nodeAt n path = some p →
        findField s2.fields f = some (.leaf l) → ∀ σr,
        readLeafThrough p f σr =
          ProxyFieldM.get_value
            ⟨synthKey s2 ns2 ++ "__" ++ f, l.name, l.ty, l.default, enc⟩ σr) := by
  have hb' : build_proxy_cls (proxyHandler enc) s ns σ = (σ', .ok (n, m)) := hb
  obtain ⟨dn, hdn, _, _⟩ := fieldDict_keys (proxyHandler enc) s ns σ σ' n m hb' hnd hnames
  obtain ⟨values, hvals, hres⟩ := binder_core enc s ns σ σ' n m hb' hnd hnames dn hdn ts toks hts
  have hcb : ∀ σc, on_state_change dn (get_value_state_keys toks) σc =
      mapE (expectedArg enc s ns n σc) ts := by
    intro σc
    simp only [on_state_change, hvals]
    exact hres σc
  refine ⟨get_reactive_state_id_keys toks,
    fun σc => on_state_change dn (get_value_state_keys toks) σc, ?_, ?_, hcb, ?_, ?_⟩
  · simp only [bind_typed_state_change, hdn]
  · exact mapO_length (mkTok s ns n) ts toks hts
  · intro σc args hargs
    simp only [] at hargs
    rw [hcb σc] at hargs
    exact mapE_length _ ts args hargs
  · intro path s2 ns2 p f l hspec hnavp hfl σr
    obtain ⟨cattrs, craw, σ1, σ2, hnav, hb2, hnd2, hnames2, hsubn⟩ :=
      nav_spec (proxyHandler enc) path s ns σ σ' n m hb' hnd hnames s2 ns2 hspec
    rw [hnavp] at hnav
    injection hnav with hp
    subst hp
    obtain ⟨cattrs0, hcn, hkattrs, hattrsOK⟩ :=
      build_attrs_char (proxyHandler enc) s2 ns2 σ1 σ2 _ craw hb2 hnames2
    have hc0 : cattrs0 = cattrs := by
      injection hcn with h1 h2 h3 h4
      exact h3.symm
    have hattrsOK2 : AttrsOK (proxyHandler enc) s2.fields (synthKey s2 ns2) cattrs :=
      hc0 ▸ hattrsOK
    obtain ⟨a, σa, σb, hgeta, hha⟩ :=
      attrsOK_findField_leaf (proxyHandler enc) s2.fields (synthKey s2 ns2) cattrs
        f l hattrsOK2 hfl
    have ha := proxyHandler_ok enc σa _ l σb a hha
    subst ha
    simp only [readLeafThrough, hgeta]

/-- The requested tokens of the C7 witness: the root leaf `c`, the nested
record at `my_other_data`, and the nested leaf `a`. -/
def tsC7 : List TokSpec :=
  [.leafTok [] "c", .subTok ["my_other_data"], .leafTok ["my_other_data"] "a"]

/-- The actual tokens formed for the C7 witness against the built test
proxy (fallback never taken). -/
def toksC7 : List (String ⊕ PEntry ProxyFieldM) :=
  (mapO (mkTok sBigger "" vBigger.1) tsC7).getD []

/-- Witness for C7: a mixed token tuple over the nested test schema. -/
theorem C7_binder_arguments_witness :
    ∃ rkeys cb, bind_typed_state_change toksC7 vBigger.1 = .ok (rkeys, cb) ∧
      toksC7.length = tsC7.length ∧
      (∀ σc, cb σc = mapE (expectedArg (default_encoder 0) sBigger "" vBigger.1 σc) tsC7) ∧
      (∀ σc args, cb σc = .ok args → args.length = tsC7.length) ∧
      (∀ (path : List String) (s2 : Schema) (ns2 : String) (p : PEntry ProxyFieldM)
        (f : String) (l : SLeaf),
        specNodeInfo sBigger "" path = some (s2, ns2) → nodeAt vBigger.1 path = some p →
        findField s2.fields f = some (.leaf l) → ∀ σr,
        readLeafThrough p f σr =
          ProxyFieldM.get_value
            ⟨synthKey s2 ns2 ++ "__" ++ f, l.name, l.ty, l.default, default_encoder 0⟩ σr) :=
  C7_binder_arguments (default_encoder 0) sBigger "" []
    (state_proxy (default_encoder 0) sBigger "" []).1 vBigger.1 vBigger.2 rfl
    (by decide) namesOK_sBigger tsC7 toksC7 rfl

/-- An adversarial schema for the binder: the outer leaf `b__B2__x` of
declared type `date` collides with the derived key of the nested leaf
`b.x` of declared type `int`. -/
def sCX : Schema :=
  .mk "Outer2" (.cons (.sub "b" (.mk "B2" (.cons (.leaf ⟨"x", .tInt, none, none⟩) .nil)))
    (.cons (.leaf ⟨"b__B2__x", .tDate, none, none⟩) .nil))

/-- The value proxy built on the colliding binder schema (fallback never
taken). -/
def vCX : PEntry ProxyFieldM × List (String × PEntry ProxyFieldM) :=
  (state_proxy (default_encoder 0) sCX "" []).2.toOption.getD (.leaf pfJunk, [])

/-- The callback-argument computation the binder registers for the nested
leaf token on the colliding schema (fallback never taken). -/
def cbCX : Store → Except PErr (List CBArg) :=
  match bind_typed_state_change [Sum.inl "Outer2__b__B2__x"] vCX.1 with
  | .ok (_, cb) => cb
  | .error _ => fun _ => .error .runtimeError

/-- The call-time store of the C7 counterexample: the shared derived key
holds an encoded date. -/
def σCX : Store := [("Outer2__b__B2__x", .pstr (dateIso 0))]

/-- C7 (counterexample): under the derived-key collision of `sCX`, the
token naming the nested leaf `b.x` resolves in the root's field dict to
the outer field's accessor, so the delivered argument is the store value
decoded as the outer field's `date` — not the store value decoded to the
requested leaf's declared type `int`, which the claim promises (here that
decode raises `ValueError`). -/
theorem C7_counterexample_collision :
    mapO (mkTok sCX "" vCX.1) [TokSpec.leafTok ["b"] "x"] =
      some [Sum.inl "Outer2__b__B2__x"] ∧
    cbCX σCX = .ok [.val (.dateV 0)] ∧
    mapE (expectedArg (default_encoder 0) sCX "" vCX.1 σCX) [TokSpec.leafTok ["b"] "x"] =
      .error .valueError ∧
    (Except.ok [CBArg.val (PVal.dateV 0)] : Except PErr (List CBArg)) ≠
      .error .valueError :=
  ⟨rfl, rfl, rfl, by simp⟩
